import Mathlib

/-!
# tesla-live: the clip resolver of `main.go`

A shallow embedding of `handleLiveRequest` (src/main.go, lines 44-145) and of the
library functions it calls, followed by the properties of the clip selection.

* Go strings are byte sequences: `GoString` is a list of byte values.
* The object store (session, `ListObjectsV2`, `Presign`) and the clock are external
  collaborators: they are fields of `Env`, and every call made to them is recorded.
* A run-time panic of the handler (an index into a nil slice) is the response `panicked`.
-/

namespace TeslaLive

/-! ## Strings -/

/-- A Go string: a sequence of bytes. -/
abbrev GoString := List Nat

/-- The bytes of an ASCII literal of the source. -/
def ascii (s : String) : GoString := s.toList.map Char.toNat

/-- Go `strings.Compare(a, b)`: byte-wise lexicographic comparison, giving -1, 0 or +1. -/
def stringsCompare : GoString → GoString → Int
  | [], [] => 0
  | [], _ :: _ => -1
  | _ :: _, [] => 1
  | x :: xs, y :: ys => if x < y then -1 else if y < x then 1 else stringsCompare xs ys

/-- Go `strings.Contains(s, substr)`: `substr` occurs in `s` as a contiguous run of bytes. -/
def stringsContains : GoString → GoString → Bool
  | [], substr => substr.isEmpty
  | c :: rest, substr => substr.isPrefixOf (c :: rest) || stringsContains rest substr

/-! ## The regular expression of line 92 -/

/-- One position of the pattern: `\d`, or a literal byte. -/
inductive Atom where
  | digit : Atom
  | lit : Nat → Atom
deriving DecidableEq, Repr

/-- Whether a byte is accepted at a position: `\d` is an ASCII digit `0`..`9`. -/
def Atom.accepts : Atom → Nat → Bool
  | Atom.digit, b => decide (48 ≤ b ∧ b ≤ 57)
  | Atom.lit c, b => decide (b = c)

/-- The counted repetition `\d{n}`. -/
def digits (n : Nat) : List Atom := List.replicate n Atom.digit

/-- The pattern `(\d{4}-\d{2}-\d{2}_\d{2}-\d{2}-\d{2})`; byte 45 is `-`, byte 95 is `_`. -/
def re : List Atom :=
  digits 4 ++ [Atom.lit 45] ++ digits 2 ++ [Atom.lit 45] ++ digits 2 ++ [Atom.lit 95] ++
  digits 2 ++ [Atom.lit 45] ++ digits 2 ++ [Atom.lit 45] ++ digits 2

/-- The text matched when the pattern matches at the very start of the input. -/
def matchHere : List Atom → GoString → Option GoString
  | [], _ => some []
  | _ :: _, [] => none
  | a :: as, b :: bs => if a.accepts b then (matchHere as bs).map (b :: ·) else none

/-- The text of the leftmost match of the pattern in the input, if there is one. -/
def findLeftmost (p : List Atom) : GoString → Option GoString
  | [] => matchHere p []
  | b :: bs =>
    match matchHere p (b :: bs) with
    | some m => some m
    | none => findLeftmost p bs

/-- Go `re.FindStringSubmatch(s)`: the leftmost match followed by the text of its one
capture group (the whole pattern); the nil slice when nothing matches. -/
def FindStringSubmatch (s : GoString) : List GoString :=
  match findLeftmost re s with
  | some m => [m, m]
  | none => []

/-! ## Objects and the comparator of lines 94-99 -/

/-- An `s3.Object` of the listing: its key, and its size standing for the other fields. -/
structure Object where
  Key : GoString
  Size : Nat
deriving DecidableEq, Repr

/-- The comparator handed to `sort.SliceStable`. Indexing `[0]` into the nil slice of a
key without a timestamp panics: the result is then `none`. -/
def less (fi fj : Object) : Option Bool := do
  let firstMatch ← (FindStringSubmatch fi.Key)[0]?
  let secondMatch ← (FindStringSubmatch fj.Key)[0]?
  pure (decide (stringsCompare secondMatch firstMatch < 0))

/-! ## `sort.SliceStable`

The standard library's stable sort (`stable_func` of package `sort`): the slice is cut
into blocks of 20 elements, each block is sorted by insertion (`insertionSort_func`), and
adjacent blocks are merged in place by `symMerge_func`, the block size doubling after
every pass, until one block is left.

A segment `data[a:b]` of the slice is a list here, and indices are taken from its start
(`a = 0`). `rotate_func`, which makes no comparison, is the exchange of two adjacent
segments. A panic of the comparator aborts the sort: the result is then `none`. The
loops that do not run over a list have a bound on their number of iterations as first
argument; the callers pass a bound that is never reached. -/

/-- The inner loop `for j := i; j > a && less(j, j-1); j--` of `insertionSort_func`:
the element `x` sinks through the sorted part before it, which is given nearest
neighbour first; the result is again nearest (rightmost) first. -/
def sink {α : Type} (lt : α → α → Option Bool) (x : α) : List α → Option (List α)
  | [] => some [x]
  | y :: before =>
    match lt x y with
    | none => none
    | some true => (sink lt x before).map (y :: ·)
    | some false => some (x :: y :: before)

/-- The outer loop `for i := a + 1; i < b; i++` of `insertionSort_func`: `done` is the
sorted part, rightmost first, and the remaining elements are inserted from left to
right. -/
def insertLoop {α : Type} (lt : α → α → Option Bool) : List α → List α → Option (List α)
  | done, [] => some done.reverse
  | done, x :: rest =>
    match sink lt x done with
    | none => none
    | some done' => insertLoop lt done' rest

/-- The library's `insertionSort_func(data, a, b)` on the segment `data[a:b]`. -/
def insertionSort_func {α : Type} (lt : α → α → Option Bool) : List α → Option (List α)
  | [] => some []
  | first :: rest => insertLoop lt [first] rest

/-- The binary searches of `symMerge_func`, all of the form
`for lo < hi { h := (lo+hi)/2; if P(h) { lo = h + 1 } else { hi = h } }`; the result is
the final `lo`. Every iteration shrinks `hi - lo`, so `hi - lo` iterations are enough. -/
def search (P : Nat → Option Bool) : Nat → Nat → Nat → Option Nat
  | 0, lo, _ => some lo
  | fuel + 1, lo, hi =>
    if lo < hi then
      match P ((lo + hi) / 2) with
      | none => none
      | some true => search P fuel ((lo + hi) / 2 + 1) hi
      | some false => search P fuel lo ((lo + hi) / 2)
    else some lo

/-- The call `data.Less(i, j)`: the comparator on the elements at two indices of the
slice. -/
def lessAt {α : Type} (lt : α → α → Option Bool) (data : List α) (i j : Nat) : Option Bool :=
  match data[i]?, data[j]? with
  | some x, some y => lt x y
  | _, _ => none

/-- The library's `symMerge_func(data, a, m, b)` on the sorted segments `A = data[a:m]`
and `B = data[m:b]`, with `a = 0`. A single element on either side is inserted by binary
search; otherwise a binary search finds how many elements of `A` stay in the first half,
the middle parts are rotated, and both halves are merged recursively. The first argument
bounds the depth of the recursion; the halves are shorter than the whole, so the length
of `data` is enough. -/
def symMerge_func {α : Type} (lt : α → α → Option Bool) :
    Nat → List α → List α → Option (List α)
  | 0, A, B => some (A ++ B)
  | fuel + 1, A, B =>
    let data := A ++ B
    let m := A.length
    let b := A.length + B.length
    -- `if m-a == 1`: search `data[m:b]` with `if data.Less(h, a) { i = h + 1 } else { j = h }`,
    -- then swap `data[a]` rightwards up to position `i - 1`
    if m = 1 then
      match search (fun h => lessAt lt data h 0) b m b with
      | none => none
      | some i => some ((data.drop 1).take (i - 1) ++ data.take 1 ++ data.drop i)
    -- `if b-m == 1`: search `data[a:m]` with `if data.Less(m, h) { j = h } else { i = h + 1 }`,
    -- then swap `data[m]` leftwards down to position `i`
    else if b - m = 1 then
      match search (fun h => (lessAt lt data m h).map not) b 0 m with
      | none => none
      | some i => some (data.take i ++ data.drop m ++ (data.take m).drop i)
    else
      let mid := b / 2
      let n := mid + m
      let p := n - 1
      -- `start, r` is `n - b, mid` if `m > mid` and `a, m` otherwise; the loop is
      -- `if !data.Less(p-c, c) { start = c + 1 } else { r = c }`
      match search (fun c => (lessAt lt data (p - c) c).map not) b
          (if m > mid then n - b else 0) (if m > mid then mid else m) with
      | none => none
      | some start =>
        -- `end := n - start`; `rotate_func(data, start, m, end)` exchanges `data[start:m]`
        -- and `data[m:end]`; then `symMerge_func(data, a, start, mid)` if
        -- `a < start && start < mid`, and `symMerge_func(data, mid, end, b)` if
        -- `mid < end && end < b`
        let e := n - start
        match (if 0 < start ∧ start < mid then
            symMerge_func lt fuel (A.take start) (B.take (e - m))
          else some (A.take start ++ B.take (e - m))) with
        | none => none
        | some left =>
          match (if mid < e ∧ e < b then
              symMerge_func lt fuel (A.drop start) (B.drop (e - m))
            else some (A.drop start ++ B.drop (e - m))) with
          | none => none
          | some right => some (left ++ right)

/-- The blocks `data[0:size]`, `data[size:2*size]`, ... of the first loop of `stable_func`;
the last block holds what is left, and there is no empty block. -/
def blocksOf {α : Type} (size : Nat) : Nat → List α → List (List α)
  | 0, _ => []
  | fuel + 1, data =>
    if data.length ≤ size then (if data.length = 0 then [] else [data])
    else data.take size :: blocksOf size fuel (data.drop size)

/-- The first loop of `stable_func`: every block is sorted by insertion. -/
def sortBlocks {α : Type} (lt : α → α → Option Bool) : List (List α) → Option (List (List α))
  | [] => some []
  | blk :: rest =>
    match insertionSort_func lt blk with
    | none => none
    | some s => (sortBlocks lt rest).map (s :: ·)

/-- One pass of the second loop of `stable_func`: adjacent blocks are merged two by two,
the last one also when it is shorter; a block without a partner is left as it is. -/
def mergePass {α : Type} (lt : α → α → Option Bool) : List (List α) → Option (List (List α))
  | b1 :: b2 :: rest =>
    match symMerge_func lt (b1.length + b2.length) b1 b2 with
    | none => none
    | some r => (mergePass lt rest).map (r :: ·)
  | rest => some rest

/-- The second loop of `stable_func`, `for blockSize < n`: passes are made as long as
there is more than one block. A pass over two or more blocks leaves fewer blocks, so as
many passes as there are blocks are enough. -/
def mergeLoop {α : Type} (lt : α → α → Option Bool) : Nat → List (List α) → Option (List α)
  | _, [] => some []
  | _, [blk] => some blk
  | 0, blocks => some blocks.flatten
  | fuel + 1, blocks =>
    match mergePass lt blocks with
    | none => none
    | some next => mergeLoop lt fuel next

/-- The library's `stable_func(data, n)`: insertion sort of the blocks of 20, then the
merge passes. -/
def stable_func {α : Type} (lt : α → α → Option Bool) (data : List α) : Option (List α) :=
  match sortBlocks lt (blocksOf 20 data.length data) with
  | none => none
  | some blocks => mergeLoop lt blocks.length blocks

/-- Go `sort.SliceStable(x, less)`, which runs `stable_func` on the slice; `none` when the
comparator panics. -/
def SliceStable {α : Type} (x : List α) (lt : α → α → Option Bool) : Option (List α) :=
  stable_func lt x

/-! ## The selector of lines 101-118 -/

/-- The name `"front"` tested at line 109. -/
def camFront : GoString := ascii "front"

/-- The name `"back"` tested at line 111. -/
def camBack : GoString := ascii "back"

/-- The name `"left"` tested at line 113. -/
def camLeft : GoString := ascii "left"

/-- The name `"right"` tested at line 115. -/
def camRight : GoString := ascii "right"

/-- The four camera angles in the order in which the loop tests them. -/
def angles : List GoString := [camFront, camBack, camLeft, camRight]

/-- The map `latestFiles` of type `map[string]*s3.Object`: a lookup of a key that was
never stored gives nil, here `none`. -/
abbrev FileMap := GoString → Option Object

/-- The map made by `make(map[string]*s3.Object)`. -/
def FileMap.empty : FileMap := fun _ => none

/-- The assignment `latestFiles[k] = file`. -/
def FileMap.set (m : FileMap) (k : GoString) (file : Object) : FileMap :=
  fun q => if q = k then some file else m q

/-- The body of the loop of lines 108-118 for one `file`. -/
def scanFile (latestFiles : FileMap) (file : Object) : FileMap :=
  if stringsContains file.Key camFront && (latestFiles camFront).isNone then
    latestFiles.set camFront file
  else if stringsContains file.Key camBack && (latestFiles camBack).isNone then
    latestFiles.set camBack file
  else if stringsContains file.Key camLeft && (latestFiles camLeft).isNone then
    latestFiles.set camLeft file
  else if stringsContains file.Key camRight && (latestFiles camRight).isNone then
    latestFiles.set camRight file
  else
    latestFiles

/-- Lines 101-104: the number of leading entries that are scanned. -/
def fileCount (fileList : List Object) : Nat :=
  if fileList.length > 8 then 8 else fileList.length

/-- Lines 101-118: `latestFiles` after the loop over `fileList[:fileCount]`. -/
def selectLatest (fileList : List Object) : FileMap :=
  (fileList.take (fileCount fileList)).foldl scanFile FileMap.empty

/-- The key `"/placeholder.mp4"` of line 123. -/
def placeholder : GoString := ascii "/placeholder.mp4"

/-- Lines 120-126: the key that is signed for the requested camera, given the sorted
listing. -/
def keyToSign (fileList : List Object) (camera : GoString) : GoString :=
  match selectLatest fileList camera with
  | none => placeholder
  | some file => file.Key

/-! ## The handler -/

/-- A call made to an external collaborator. -/
inductive Call where
  | newSession : Call
  | listObjectsV2 (bucket pfx startAfter : GoString) (maxKeys : Nat) : Call
  | presign (bucket key : GoString) (seconds : Nat) : Call
deriving DecidableEq, Repr

/-- What the handler leaves on the response writer: `http.Error(w, body, code)`,
`http.Redirect(w, r, url, code)`, or nothing because the handler panicked. -/
inductive Response where
  | httpError (body : GoString) (code : Nat) : Response
  | httpRedirect (url : GoString) (code : Nat) : Response
  | panicked : Response
deriving DecidableEq, Repr

/-- The environment of one request: configuration, the two clock readings as they are
formatted at lines 69 and 72, and the behaviour of the session and of the store. -/
structure Env where
  /-- Value of `os.Getenv("S3_BUCKET_NAME")`. -/
  bucketName : GoString
  /-- Value of `os.Getenv("S3_BUCKET_PREFIX")`. -/
  bucketPfx : GoString
  /-- Value of `time.Now().In(loc).Format("2006-01-02")`. -/
  currentDate : GoString
  /-- Value of `time.Now().In(loc).Add(-10 * time.Minute).Format("2006-01-02_15-04-05")`. -/
  startAfter : GoString
  /-- Outcome of `session.NewSession`. -/
  newSession : Except GoString Unit
  /-- Outcome of `svc.ListObjectsV2` for bucket, prefix, start-after and max-keys. -/
  listObjectsV2 : GoString → GoString → GoString → Nat → Except GoString (List Object)
  /-- Outcome of `req.Presign` for bucket, key and validity in seconds. -/
  presign : GoString → GoString → Nat → Except GoString GoString

/-- Go `r.URL.Query().Get("camera")`: the empty string when the parameter is omitted. -/
def queryGet (camera : Option GoString) : GoString := camera.getD []

/-- Line 70: `fullPrefix := prefix + "/streams/" + currentDate`. -/
def fullPfx (env : Env) : GoString := env.bucketPfx ++ ascii "/streams/" ++ env.currentDate

/-- Line 79: the `StartAfter` parameter, `fullPrefix + "/" + startAfter`. -/
def listStart (env : Env) : GoString := fullPfx env ++ ascii "/" ++ env.startAfter

/-- Lines 74-82: the listing request, at most 100 keys, and its outcome. -/
def listObjects (env : Env) : Except GoString (List Object) :=
  env.listObjectsV2 env.bucketName (fullPfx env) (listStart env) 100

/-- The calls made once the listing has been requested. -/
def listed (env : Env) : List Call :=
  [Call.newSession, Call.listObjectsV2 env.bucketName (fullPfx env) (listStart env) 100]

/-- The function `handleLiveRequest` of lines 44-145: the response, and the calls made to
the session and the store, in order. -/
def handleLiveRequest (env : Env) (query : Option GoString) : Response × List Call :=
  let camera := queryGet query
  if camera = [] then
    (Response.httpError (ascii "No camera specified (front, back, left, right)") 400, [])
  else
    match env.newSession with
    | Except.error err => (Response.httpError err 500, [Call.newSession])
    | Except.ok _ =>
      match listObjects env with
      | Except.error err => (Response.httpError err 500, listed env)
      | Except.ok fileList =>
        if fileList.length > 0 then
          match SliceStable fileList less with
          | none => (Response.panicked, listed env)
          | some sorted =>
            let key := keyToSign sorted camera
            let signed := listed env ++ [Call.presign env.bucketName key 5]
            match env.presign env.bucketName key 5 with
            | Except.error err => (Response.httpError err 500, signed)
            | Except.ok urlStr => (Response.httpRedirect urlStr 302, signed)
        else
          (Response.httpError (ascii "No files found") 500, listed env)

/-- The keys handed to `Presign` among the calls of a request. -/
def signedKeys : List Call → List GoString
  | [] => []
  | Call.presign _ key _ :: rest => key :: signedKeys rest
  | _ :: rest => signedKeys rest

/-! ## Vocabulary of the properties -/

/-- The timestamp the comparator reads from a key: element `[0]` of
`re.FindStringSubmatch(key)`, the leftmost match; `none` when the key has no match. -/
def timestampOf (key : GoString) : Option GoString := (FindStringSubmatch key)[0]?

/-- An object whose key contains a substring that matches the pattern. -/
def hasTimestamp (o : Object) : Bool := (timestampOf o.Key).isSome

/-- The leftmost timestamp of an object's key (the empty string when there is none). -/
def timestamp (o : Object) : GoString := (timestampOf o.Key).getD []

/-- In the sorted part, read rightmost first, every entry is at most as recent as the
entries that follow it. -/
def Ascending (a b : Object) : Prop := 0 ≤ stringsCompare (timestamp b) (timestamp a)

/-- Left to right, every entry is at least as recent as the entries that follow it. -/
def Descending (a b : Object) : Prop := 0 ≤ stringsCompare (timestamp a) (timestamp b)

/-- The angle under which the loop body records a file: the first angle, in the fixed
order, whose name the key contains and that has no winner in `latestFiles`. -/
def angleFor (latestFiles : FileMap) (file : Object) : Option GoString :=
  angles.find? (fun a => stringsContains file.Key a && (latestFiles a).isNone)

/-- The first angle, in the fixed order, whose name the key contains. -/
def firstAngle (file : Object) : Option GoString :=
  angles.find? (fun a => stringsContains file.Key a)

/-- A well-formed key: it contains a timestamp and the name of exactly one angle. -/
def wellFormed (o : Object) : Bool :=
  hasTimestamp o && decide ((angles.filter (fun a => stringsContains o.Key a)).length = 1)

/-- A string that matches the pattern as a whole: `YYYY-MM-DD_HH-MM-SS`. -/
def isTimestamp (s : GoString) : Bool := decide (matchHere re s = some s)

/-- The number written by a run of ASCII digits, most significant digit first. -/
def decimal (ds : GoString) : Nat := ds.foldl (fun n d => 10 * n + (d - 48)) 0

/-- The numeric fields of a timestamp. -/
structure Instant where
  year : Nat
  month : Nat
  day : Nat
  hour : Nat
  minute : Nat
  second : Nat
deriving DecidableEq, Repr

/-- The fields of `YYYY-MM-DD_HH-MM-SS`, read at their fixed positions. -/
def fieldsOf (s : GoString) : Instant :=
  { year := decimal (s.take 4)
    month := decimal ((s.drop 5).take 2)
    day := decimal ((s.drop 8).take 2)
    hour := decimal ((s.drop 11).take 2)
    minute := decimal ((s.drop 14).take 2)
    second := decimal ((s.drop 17).take 2) }

/-- Lexicographic order of the tuples (year, month, day, hour, minute, second). -/
def Instant.before (a b : Instant) : Prop :=
  a.year < b.year ∨ (a.year = b.year ∧ (a.month < b.month ∨ (a.month = b.month ∧
    (a.day < b.day ∨ (a.day = b.day ∧ (a.hour < b.hour ∨ (a.hour = b.hour ∧
      (a.minute < b.minute ∨ (a.minute = b.minute ∧ a.second < b.second)))))))))

/-- A stable rearrangement: `r` is a permutation of `l` in which, for every timestamp, the
entries that carry it come in the order they have in `l`. -/
def StablePerm (r l : List Object) : Prop :=
  r.Perm l ∧ ∀ t, r.filter (fun o => decide (timestamp o = t)) =
    l.filter (fun o => decide (timestamp o = t))

/-- A property shared by all blocks: none is empty, every key carries a timestamp, and
each block is in descending order. -/
def SortedBlocks (blocks : List (List Object)) : Prop :=
  ∀ b ∈ blocks, b ≠ [] ∧ (∀ o ∈ b, hasTimestamp o = true) ∧ b.Pairwise Descending

/-! ## Example data -/

/-- A listed object with the given ASCII key. -/
def clip (key : String) (size : Nat) : Object := { Key := ascii key, Size := size }

/-- An in-memory store: the session opens, every listing request returns `listing`, and
signing a key returns the key behind a fixed host. -/
def fakeStore (listing : List Object) : Env :=
  { bucketName := ascii "clips"
    bucketPfx := ascii "tesla"
    currentDate := ascii "2024-01-01"
    startAfter := ascii "2024-01-01_09-55-00"
    newSession := Except.ok ()
    listObjectsV2 := fun _ _ _ _ => Except.ok listing
    presign := fun _ key _ => Except.ok (ascii "https://s3.test" ++ key) }

/-- Two front clips, the older one listed first. -/
def twoFront : List Object :=
  [clip "tesla/streams/2024-01-01/2024-01-01_09-00-00-front.mp4" 1,
   clip "tesla/streams/2024-01-01/2024-01-01_10-00-00-front.mp4" 2]

/-- Four clips of two capture bursts, the older burst listed first. -/
def twoBursts : List Object :=
  [clip "tesla/streams/2024-01-01/2024-01-01_09-00-00-back.mp4" 1,
   clip "tesla/streams/2024-01-01/2024-01-01_09-00-00-front.mp4" 2,
   clip "tesla/streams/2024-01-01/2024-01-01_10-00-00-back.mp4" 3,
   clip "tesla/streams/2024-01-01/2024-01-01_10-00-00-front.mp4" 4]

/-- A listing without any clip of the right camera. -/
def noRight : List Object :=
  [clip "tesla/streams/2024-01-01/2024-01-01_10-00-00-front.mp4" 1,
   clip "tesla/streams/2024-01-01/2024-01-01_10-00-00-back.mp4" 2,
   clip "tesla/streams/2024-01-01/2024-01-01_10-00-00-left.mp4" 3]

/-- A ranked sequence of nine clips: eight newer clips of the other cameras, then the only
front clip. -/
def nineRanked : List Object :=
  [clip "2024-01-01_10-00-09-back.mp4" 1, clip "2024-01-01_10-00-08-left.mp4" 2,
   clip "2024-01-01_10-00-07-right.mp4" 3, clip "2024-01-01_10-00-06-back.mp4" 4,
   clip "2024-01-01_10-00-05-left.mp4" 5, clip "2024-01-01_10-00-04-right.mp4" 6,
   clip "2024-01-01_10-00-03-back.mp4" 7, clip "2024-01-01_10-00-02-left.mp4" 8,
   clip "2024-01-01_10-00-01-front.mp4" 9]

/-- A listing of one object whose key has no timestamp. -/
def oneMalformed : List Object := [clip "tesla/streams/2024-01-01/front.mp4" 1]

/-- A listing of two objects, the second with a key that has no timestamp. -/
def twoWithMalformed : List Object :=
  [clip "tesla/streams/2024-01-01/2024-01-01_10-00-00-front.mp4" 1,
   clip "tesla/streams/2024-01-01/front.mp4" 2]

/-- A ranked sequence whose second key names two angles. -/
def ambiguous : List Object :=
  [clip "2024-01-01_10-00-00-front.mp4" 1, clip "2024-01-01_09-00-00-front-back.mp4" 2]

/-! ## Properties of the string functions -/

theorem stringsCompare_self (a : GoString) : stringsCompare a a = 0 := by
  induction a with
  | nil => rfl
  | cons x xs ih => simp [stringsCompare, ih]

theorem stringsCompare_swap (a b : GoString) : stringsCompare b a = - stringsCompare a b := by
  induction a generalizing b with
  | nil => cases b <;> simp [stringsCompare]
  | cons x xs ih =>
    cases b with
    | nil => simp [stringsCompare]
    | cons y ys =>
      simp only [stringsCompare]
      by_cases h1 : x < y
      · have h2 : ¬ y < x := by omega
        simp [h1, h2]
      · by_cases h2 : y < x
        · simp [h1, h2]
        · simp [h1, h2, ih]

theorem stringsCompare_range (a b : GoString) :
    stringsCompare a b = -1 ∨ stringsCompare a b = 0 ∨ stringsCompare a b = 1 := by
  induction a generalizing b with
  | nil => cases b <;> simp [stringsCompare]
  | cons x xs ih =>
    cases b with
    | nil => simp [stringsCompare]
    | cons y ys =>
      simp only [stringsCompare]
      split_ifs
      · simp
      · simp
      · exact ih ys

theorem stringsCompare_eq_zero {a b : GoString} : stringsCompare a b = 0 ↔ a = b := by
  constructor
  · intro h
    induction a generalizing b with
    | nil => cases b <;> simp_all [stringsCompare]
    | cons x xs ih =>
      cases b with
      | nil => simp [stringsCompare] at h
      | cons y ys =>
        simp only [stringsCompare] at h
        split_ifs at h with h1 h2
        · simp at h
        · have hxy : x = y := by omega
          rw [hxy, ih h]
  · rintro rfl
    exact stringsCompare_self a

theorem stringsCompare_trans {a b c : GoString}
    (hab : 0 ≤ stringsCompare a b) (hbc : 0 ≤ stringsCompare b c) :
    0 ≤ stringsCompare a c := by
  induction a generalizing b c with
  | nil =>
    cases b with
    | nil => exact hbc
    | cons y ys => simp [stringsCompare] at hab
  | cons x xs ih =>
    cases b with
    | nil =>
      cases c with
      | nil => simp [stringsCompare]
      | cons z zs => simp [stringsCompare] at hbc
    | cons y ys =>
      cases c with
      | nil => simp [stringsCompare]
      | cons z zs =>
        simp only [stringsCompare] at hab hbc ⊢
        split_ifs at hab hbc ⊢ <;> first | omega | (exact ih hab hbc)

/-- `strings.Contains` holds exactly when the second string is a contiguous part of the
first. -/
theorem stringsContains_iff (s substr : GoString) :
    stringsContains s substr = true ↔ ∃ before after, s = before ++ substr ++ after := by
  induction s with
  | nil =>
    simp only [stringsContains, List.isEmpty_iff]
    constructor
    · rintro rfl
      exact ⟨[], [], rfl⟩
    · rintro ⟨before, after, h⟩
      have := congrArg List.length h
      simp only [List.length_nil, List.length_append] at this
      exact List.length_eq_zero.mp (by omega)
  | cons c rest ih =>
    simp only [stringsContains, Bool.or_eq_true, List.isPrefixOf_iff_prefix, ih]
    constructor
    · rintro (⟨after, h⟩ | ⟨before, after, h⟩)
      · exact ⟨[], after, by simpa using h.symm⟩
      · exact ⟨c :: before, after, by rw [h]; simp⟩
    · rintro ⟨before, after, h⟩
      cases before with
      | nil => exact Or.inl ⟨after, by simpa using h.symm⟩
      | cons d before =>
        simp only [List.cons_append, List.cons.injEq] at h
        exact Or.inr ⟨before, after, h.2⟩

/-! ## The regular expression -/

theorem matchHere_eq_some {p : List Atom} : ∀ {s m : GoString}, matchHere p s = some m →
    ∃ rest, s = m ++ rest ∧ matchHere p m = some m := by
  induction p with
  | nil =>
    intro s m h
    simp only [matchHere, Option.some.injEq] at h
    subst h
    exact ⟨s, rfl, rfl⟩
  | cons a as ih =>
    intro s m h
    cases s with
    | nil => simp [matchHere] at h
    | cons b bs =>
      simp only [matchHere] at h
      split_ifs at h with hacc
      cases hm : matchHere as bs with
      | none => simp [hm] at h
      | some m1 =>
        simp only [hm, Option.map_some', Option.some.injEq] at h
        subst h
        obtain ⟨rest, hrest, hself⟩ := ih hm
        refine ⟨rest, by rw [hrest]; rfl, ?_⟩
        simp [matchHere, hacc, hself]

theorem matchHere_append {p : List Atom} : ∀ {m : GoString} (rest : GoString),
    matchHere p m = some m → matchHere p (m ++ rest) = some m := by
  induction p with
  | nil =>
    intro m rest h
    simp only [matchHere, Option.some.injEq] at h
    subst h
    rfl
  | cons a as ih =>
    intro m rest h
    cases m with
    | nil => simp [matchHere] at h
    | cons b bs =>
      simp only [matchHere, List.cons_append] at h ⊢
      split_ifs at h ⊢ with hacc
      cases hm : matchHere as bs with
      | none => simp [hm] at h
      | some m1 =>
        simp only [hm, Option.map_some', Option.some.injEq, List.cons.injEq, true_and] at h
        subst h
        simp [ih rest hm]

/-- The leftmost match: the text found matches the pattern as a whole and occurs in the
input, and the pattern matches at no earlier position. -/
theorem findLeftmost_eq_some {p : List Atom} : ∀ {s m : GoString}, findLeftmost p s = some m →
    matchHere p m = some m ∧ ∃ before after, s = before ++ m ++ after ∧
      ∀ k, k < before.length → matchHere p (s.drop k) = none := by
  intro s
  induction s with
  | nil =>
    intro m h
    simp only [findLeftmost] at h
    obtain ⟨rest, hrest, hself⟩ := matchHere_eq_some h
    refine ⟨hself, [], rest, by simpa using hrest, fun k hk => by simp at hk⟩
  | cons b bs ih =>
    intro m h
    simp only [findLeftmost] at h
    cases hm : matchHere p (b :: bs) with
    | some m1 =>
      simp only [hm, Option.some.injEq] at h
      subst h
      obtain ⟨rest, hrest, hself⟩ := matchHere_eq_some hm
      exact ⟨hself, [], rest, by simpa using hrest, fun k hk => by simp at hk⟩
    | none =>
      simp only [hm] at h
      obtain ⟨hself, before, after, hsplit, hearly⟩ := ih h
      refine ⟨hself, b :: before, after, by rw [hsplit]; simp, ?_⟩
      intro k hk
      cases k with
      | zero => simpa using hm
      | succ k =>
        simp only [List.length_cons] at hk
        simpa using hearly k (by omega)

/-- The search finds a match whenever the input holds one. -/
theorem findLeftmost_isSome {p : List Atom} {m : GoString} (hm : matchHere p m = some m) :
    ∀ (before after : GoString), (findLeftmost p (before ++ m ++ after)).isSome = true := by
  intro before
  induction before with
  | nil =>
    intro after
    have h := matchHere_append after hm
    cases hma : m ++ after with
    | nil =>
      simp only [List.nil_append, hma, findLeftmost]
      rw [hma] at h
      rw [h]
      rfl
    | cons b bs =>
      simp only [List.nil_append, hma, findLeftmost]
      rw [hma] at h
      rw [h]
      rfl
  | cons b before ih =>
    intro after
    simp only [List.cons_append, findLeftmost]
    cases matchHere p (b :: (before ++ m ++ after)) with
    | some m1 => rfl
    | none => exact ih after

theorem timestampOf_eq (key : GoString) : timestampOf key = findLeftmost re key := by
  unfold timestampOf FindStringSubmatch
  cases findLeftmost re key <;> rfl

/-- A key has a timestamp exactly when it contains a substring that matches the pattern. -/
theorem hasTimestamp_iff (o : Object) :
    hasTimestamp o = true ↔
      ∃ before m after, o.Key = before ++ m ++ after ∧ isTimestamp m = true := by
  unfold hasTimestamp isTimestamp
  rw [timestampOf_eq]
  constructor
  · intro h
    obtain ⟨m, hm⟩ := Option.isSome_iff_exists.mp h
    obtain ⟨hself, before, after, hsplit, _⟩ := findLeftmost_eq_some hm
    exact ⟨before, m, after, hsplit, by simpa using hself⟩
  · rintro ⟨before, m, after, hsplit, hm⟩
    rw [hsplit]
    exact findLeftmost_isSome (by simpa using hm) before after

/-- The timestamp of a key is its leftmost substring that matches the pattern. -/
theorem timestampOf_leftmost {key m : GoString} (h : timestampOf key = some m) :
    isTimestamp m = true ∧ ∃ before after, key = before ++ m ++ after ∧
      ∀ k, k < before.length → matchHere re (key.drop k) = none := by
  rw [timestampOf_eq] at h
  obtain ⟨hself, hrest⟩ := findLeftmost_eq_some h
  exact ⟨by simpa [isTimestamp] using hself, hrest⟩

/-! ## The comparator -/

theorem less_of_hasTimestamp {a b : Object} (ha : hasTimestamp a = true)
    (hb : hasTimestamp b = true) :
    less a b = some (decide (stringsCompare (timestamp b) (timestamp a) < 0)) := by
  unfold hasTimestamp timestampOf at ha hb
  unfold less timestamp timestampOf
  cases h1 : (FindStringSubmatch a.Key)[0]? with
  | none => simp [h1] at ha
  | some ta =>
    cases h2 : (FindStringSubmatch b.Key)[0]? with
    | none => simp [h2] at hb
    | some tb => simp

theorem less_left_none {a : Object} (b : Object) (ha : hasTimestamp a = false) :
    less a b = none := by
  unfold hasTimestamp timestampOf at ha
  unfold less
  cases h1 : (FindStringSubmatch a.Key)[0]? with
  | none => simp
  | some ta => simp [h1] at ha

theorem less_right_none (a : Object) {b : Object} (hb : hasTimestamp b = false) :
    less a b = none := by
  unfold hasTimestamp timestampOf at hb
  unfold less
  cases h2 : (FindStringSubmatch b.Key)[0]? with
  | none => cases h1 : (FindStringSubmatch a.Key)[0]? <;> simp
  | some tb => simp [h2] at hb

/-! ## The insertion pass -/

theorem sink_ne_nil {α : Type} (lt : α → α → Option Bool) (x : α) (done r : List α)
    (h : sink lt x done = some r) : r ≠ [] := by
  cases done with
  | nil => simp [sink] at h; simp [← h]
  | cons y before =>
    simp only [sink] at h
    cases hl : lt x y with
    | none => simp [hl] at h
    | some v =>
      cases v with
      | true =>
        simp only [hl] at h
        cases hs : sink lt x before with
        | none => simp [hs] at h
        | some r1 => simp [hs] at h; simp [← h]
      | false => simp [hl] at h; simp [← h]

theorem sink_spec (x : Object) (hx : hasTimestamp x = true) :
    ∀ done : List Object, (∀ y ∈ done, hasTimestamp y = true) →
      ∃ r, sink less x done = some r ∧ r.Perm (x :: done) ∧
        (done.Pairwise Ascending → r.Pairwise Ascending) ∧
        ∀ t, r.filter (fun o => decide (timestamp o = t)) =
          (x :: done).filter (fun o => decide (timestamp o = t)) := by
  intro done
  induction done with
  | nil =>
    intro _
    exact ⟨[x], rfl, List.Perm.refl _, fun _ => List.pairwise_singleton _ _, fun _ => rfl⟩
  | cons y before ih =>
    intro hgood
    have hy : hasTimestamp y = true := hgood y (List.mem_cons_self _ _)
    have hbefore : ∀ z ∈ before, hasTimestamp z = true :=
      fun z hz => hgood z (List.mem_cons_of_mem _ hz)
    obtain ⟨r1, hr1, hperm1, hsorted1, hstable1⟩ := ih hbefore
    by_cases hlt : stringsCompare (timestamp y) (timestamp x) < 0
    · refine ⟨y :: r1, ?_, ?_, ?_, ?_⟩
      · simp [sink, less_of_hasTimestamp hx hy, hlt, hr1]
      · exact (List.Perm.cons y hperm1).trans (List.Perm.swap x y before)
      · intro hp
        rw [List.pairwise_cons] at hp ⊢
        refine ⟨?_, hsorted1 hp.2⟩
        intro z hz
        rcases List.mem_cons.mp (hperm1.subset hz) with rfl | hzb
        · unfold Ascending
          rw [stringsCompare_swap]
          omega
        · exact hp.1 z hzb
      · intro t
        have hne : timestamp y ≠ timestamp x := by
          intro he
          rw [he, stringsCompare_self] at hlt
          omega
        by_cases hyt : timestamp y = t
        · have hxt : ¬ timestamp x = t := fun h => hne (hyt.trans h.symm)
          have := hstable1 t
          simp [List.filter_cons, hyt, hxt] at this ⊢
          exact this
        · have := hstable1 t
          simp [List.filter_cons, hyt] at this ⊢
          exact this
    · refine ⟨x :: y :: before, ?_, List.Perm.refl _, ?_, fun _ => rfl⟩
      · simp [sink, less_of_hasTimestamp hx hy, hlt]
      · intro hp
        have hxy : Ascending x y := by
          unfold Ascending
          omega
        rw [List.pairwise_cons]
        refine ⟨?_, hp⟩
        intro z hz
        rcases List.mem_cons.mp hz with rfl | hzb
        · exact hxy
        · have hyz : Ascending y z := (List.pairwise_cons.mp hp).1 z hzb
          exact stringsCompare_trans hyz hxy

theorem insertLoop_spec :
    ∀ (rest done : List Object), (∀ y ∈ done, hasTimestamp y = true) →
      (∀ y ∈ rest, hasTimestamp y = true) →
      ∃ r, insertLoop less done rest = some r ∧ r.Perm (done.reverse ++ rest) ∧
        (done.Pairwise Ascending → r.Pairwise Descending) ∧
        ∀ t, r.filter (fun o => decide (timestamp o = t)) =
          (done.reverse ++ rest).filter (fun o => decide (timestamp o = t)) := by
  intro rest
  induction rest with
  | nil =>
    intro done _ _
    refine ⟨done.reverse, rfl, by simp, ?_, by simp⟩
    intro hp
    rw [List.pairwise_reverse]
    exact hp
  | cons x rest ih =>
    intro done hdone hrest
    have hx : hasTimestamp x = true := hrest x (List.mem_cons_self _ _)
    obtain ⟨d1, hd1, hperm1, hsorted1, hstable1⟩ := sink_spec x hx done hdone
    have hd1good : ∀ y ∈ d1, hasTimestamp y = true := by
      intro y hy
      rcases List.mem_cons.mp (hperm1.subset hy) with rfl | h
      · exact hx
      · exact hdone y h
    obtain ⟨r, hr, hperm, hsorted, hstable⟩ :=
      ih d1 hd1good (fun y hy => hrest y (List.mem_cons_of_mem _ hy))
    refine ⟨r, ?_, ?_, ?_, ?_⟩
    · simp [insertLoop, hd1, hr]
    · refine hperm.trans ?_
      have h1 : d1.reverse.Perm (done.reverse ++ [x]) := by
        refine (List.reverse_perm d1).trans (hperm1.trans ?_)
        refine List.Perm.trans ?_ (List.perm_append_comm)
        exact List.Perm.cons x (List.reverse_perm done).symm
      have h2 := List.Perm.append_right rest h1
      simpa using h2
    · intro hp
      exact hsorted (hsorted1 hp)
    · intro t
      rw [hstable t]
      have h := hstable1 t
      simp only [List.filter_append, List.filter_reverse, h]
      simp [List.filter_cons]
      split_ifs <;> simp

theorem insertLoop_panics :
    ∀ (rest done : List Object), done ≠ [] → (∃ o ∈ rest, hasTimestamp o = false) →
      insertLoop less done rest = none := by
  intro rest
  induction rest with
  | nil => intro done _ h; simp at h
  | cons x rest ih =>
    intro done hdone hbad
    simp only [insertLoop]
    cases hs : sink less x done with
    | none => rfl
    | some d1 =>
      simp only
      apply ih d1 (sink_ne_nil less x done d1 hs)
      obtain ⟨o, ho, hbo⟩ := hbad
      rcases List.mem_cons.mp ho with rfl | hmem
      · exfalso
        cases done with
        | nil => exact hdone rfl
        | cons y before => simp [sink, less_left_none y hbo] at hs
      · exact ⟨o, hmem, hbo⟩

/-! ## The order of the ranking -/

theorem descending_refl (x : Object) : Descending x x := by
  unfold Descending
  rw [stringsCompare_self]

theorem descending_total (x y : Object) : Descending x y ∨ Descending y x := by
  unfold Descending
  rw [stringsCompare_swap (timestamp x) (timestamp y)]
  omega

theorem descending_trans {x y z : Object} (h1 : Descending x y) (h2 : Descending y z) :
    Descending x z :=
  stringsCompare_trans h1 h2

theorem descending_of_eq {x y : Object} (h : timestamp x = timestamp y) : Descending x y := by
  unfold Descending
  rw [h, stringsCompare_self]

theorem less_true_iff {a b : Object} (ha : hasTimestamp a = true)
    (hb : hasTimestamp b = true) : less a b = some true ↔ ¬ Descending b a := by
  rw [less_of_hasTimestamp ha hb]
  unfold Descending
  simp only [Option.some.injEq, decide_eq_true_eq]
  omega

theorem less_false_iff {a b : Object} (ha : hasTimestamp a = true)
    (hb : hasTimestamp b = true) : less a b = some false ↔ Descending b a := by
  rw [less_of_hasTimestamp ha hb]
  unfold Descending
  simp only [Option.some.injEq, decide_eq_false_iff_not]
  omega

/-! ## Sorted segments -/

theorem split_at_index {α : Type} {l : List α} {i : Nat} {z : α} (h : l[i]? = some z) :
    l = l.take i ++ z :: l.drop (i + 1) := by
  obtain ⟨hi, hz⟩ := List.getElem?_eq_some.mp h
  rw [← hz, ← List.drop_eq_getElem_cons hi, List.take_append_drop]

theorem sorted_take_le {l : List Object} (hs : l.Pairwise Descending) {i : Nat} {z : Object}
    (h : l[i]? = some z) : ∀ x ∈ l.take (i + 1), Descending x z := by
  intro x hx
  obtain ⟨hi, hz⟩ := List.getElem?_eq_some.mp h
  rw [List.take_succ, h] at hx
  simp only [Option.toList_some, List.mem_append, List.mem_singleton] at hx
  rcases hx with hx | rfl
  · have hsplit := split_at_index h
    rw [hsplit] at hs
    exact (List.pairwise_append.mp hs).2.2 x hx z (List.mem_cons_self _ _)
  · exact descending_refl x

theorem sorted_drop_ge {l : List Object} (hs : l.Pairwise Descending) {i : Nat} {z : Object}
    (h : l[i]? = some z) : ∀ y ∈ l.drop i, Descending z y := by
  intro y hy
  obtain ⟨hi, hz⟩ := List.getElem?_eq_some.mp h
  rw [List.drop_eq_getElem_cons hi, hz] at hy
  rcases List.mem_cons.mp hy with rfl | hy
  · exact descending_refl y
  · have hsplit := split_at_index h
    rw [hsplit] at hs
    exact (List.pairwise_cons.mp (List.pairwise_append.mp hs).2.1).1 y hy

/-! ## The binary search -/

theorem search_spec (P : Nat → Option Bool) :
    ∀ (fuel lo hi : Nat), lo ≤ hi → hi - lo ≤ fuel →
      (∀ h, lo ≤ h → h < hi → ∃ v, P h = some v) →
      ∃ s, search P fuel lo hi = some s ∧ lo ≤ s ∧ s ≤ hi ∧
        (lo < s → P (s - 1) = some true) ∧ (s < hi → P s = some false) := by
  intro fuel
  induction fuel with
  | zero =>
    intro lo hi hle hfuel _
    have : lo = hi := by omega
    subst this
    exact ⟨lo, rfl, le_refl _, le_refl _, fun h => absurd h (lt_irrefl _),
      fun h => absurd h (lt_irrefl _)⟩
  | succ fuel ih =>
    intro lo hi hle hfuel hP
    by_cases hlt : lo < hi
    · have hmid1 : lo ≤ (lo + hi) / 2 := by omega
      have hmid2 : (lo + hi) / 2 < hi := by omega
      obtain ⟨v, hv⟩ := hP _ hmid1 hmid2
      cases v with
      | true =>
        obtain ⟨s, hs, h1, h2, h3, h4⟩ := ih ((lo + hi) / 2 + 1) hi (by omega) (by omega)
          (fun h hh1 hh2 => hP h (by omega) hh2)
        refine ⟨s, ?_, by omega, h2, ?_, h4⟩
        · simp only [search, hlt, if_true, hv]
          exact hs
        · intro _
          by_cases hcase : (lo + hi) / 2 + 1 < s
          · exact h3 hcase
          · have : s - 1 = (lo + hi) / 2 := by omega
            rw [this]
            exact hv
      | false =>
        obtain ⟨s, hs, h1, h2, h3, h4⟩ := ih lo ((lo + hi) / 2) hmid1 (by omega)
          (fun h hh1 hh2 => hP h hh1 (by omega))
        refine ⟨s, ?_, h1, by omega, h3, ?_⟩
        · simp only [search, hlt, if_true, hv]
          exact hs
        · intro _
          by_cases hcase : s < (lo + hi) / 2
          · exact h4 hcase
          · have : s = (lo + hi) / 2 := by omega
            rw [this]
            exact hv
    · have : lo = hi := by omega
      subst this
      refine ⟨lo, ?_, le_refl _, le_refl _, fun h => absurd h (lt_irrefl _),
        fun h => absurd h (lt_irrefl _)⟩
      simp [search]

theorem search_none (P : Nat → Option Bool) (fuel lo hi : Nat) (hlt : lo < hi)
    (hP : ∀ h, P h = none) : search P (fuel + 1) lo hi = none := by
  simp [search, hlt, hP]

/-! ## Stable rearrangements -/

theorem stablePerm_refl (l : List Object) : StablePerm l l :=
  ⟨List.Perm.refl l, fun _ => rfl⟩

theorem stablePerm_trans {a b c : List Object} (h1 : StablePerm a b) (h2 : StablePerm b c) :
    StablePerm a c :=
  ⟨h1.1.trans h2.1, fun t => (h1.2 t).trans (h2.2 t)⟩

theorem stablePerm_append {a b c d : List Object} (h1 : StablePerm a b)
    (h2 : StablePerm c d) : StablePerm (a ++ c) (b ++ d) :=
  ⟨h1.1.append h2.1, fun t => by rw [List.filter_append, List.filter_append, h1.2 t, h2.2 t]⟩

theorem filter_timestamp_eq_nil {l : List Object} {t : GoString}
    (h : ∀ o ∈ l, timestamp o ≠ t) : l.filter (fun o => decide (timestamp o = t)) = [] := by
  rw [List.filter_eq_nil_iff]
  intro o ho
  simpa using h o ho

/-- Two adjacent segments may be exchanged when no entry of one has the timestamp of an
entry of the other. -/
theorem stablePerm_exchange {u v : List Object}
    (h : ∀ x ∈ u, ∀ y ∈ v, timestamp x ≠ timestamp y) : StablePerm (v ++ u) (u ++ v) := by
  refine ⟨List.perm_append_comm, ?_⟩
  intro t
  rw [List.filter_append, List.filter_append]
  by_cases hu : ∃ x ∈ u, timestamp x = t
  · obtain ⟨x, hx, hxt⟩ := hu
    have hv : v.filter (fun o => decide (timestamp o = t)) = [] :=
      filter_timestamp_eq_nil (fun y hy hyt => h x hx y hy (hxt.trans hyt.symm))
    rw [hv, List.nil_append, List.append_nil]
  · have hu2 : u.filter (fun o => decide (timestamp o = t)) = [] :=
      filter_timestamp_eq_nil (fun x hx hxt => hu ⟨x, hx, hxt⟩)
    rw [hu2, List.nil_append, List.append_nil]

theorem timestamp_ne_of_not_descending {x y : Object} (h : ¬ Descending x y) :
    timestamp x ≠ timestamp y :=
  fun he => h (descending_of_eq he)

/-- Insertion of the single element of the right segment into the left one. -/
theorem insert_right_spec {A : List Object} (hA : A.Pairwise Descending) (y : Object)
    {i : Nat} (hi : i ≤ A.length) (h1 : 0 < i → ∀ z, A[i - 1]? = some z → Descending z y)
    (h2 : ∀ z, A[i]? = some z → ¬ Descending z y) :
    StablePerm (A.take i ++ y :: A.drop i) (A ++ [y]) ∧
      (A.take i ++ y :: A.drop i).Pairwise Descending := by
  have hafter : ∀ x ∈ A.drop i, ¬ Descending x y := by
    intro x hx hxy
    cases hz : A[i]? with
    | none =>
      rw [List.getElem?_eq_none_iff] at hz
      rw [List.drop_of_length_le hz] at hx
      simp at hx
    | some z => exact h2 z hz (descending_trans (sorted_drop_ge hA hz x hx) hxy)
  have hbefore : ∀ x ∈ A.take i, Descending x y := by
    intro x hx
    cases i with
    | zero => simp at hx
    | succ k =>
      cases hz : A[k]? with
      | none =>
        rw [List.getElem?_eq_none_iff] at hz
        omega
      | some z => exact descending_trans (sorted_take_le hA hz x hx) (h1 (by omega) z (by simpa using hz))
  constructor
  · have h3 : StablePerm ([y] ++ A.drop i) (A.drop i ++ [y]) :=
      stablePerm_exchange (fun x hx z hz => by
        simp only [List.mem_singleton] at hz
        subst hz
        exact timestamp_ne_of_not_descending (hafter x hx))
    have h4 := stablePerm_append (stablePerm_refl (A.take i)) h3
    have e1 : A.take i ++ ([y] ++ A.drop i) = A.take i ++ y :: A.drop i := rfl
    have e2 : A.take i ++ (A.drop i ++ [y]) = A ++ [y] := by
      rw [← List.append_assoc, List.take_append_drop]
    rw [e1, e2] at h4
    exact h4
  · rw [List.pairwise_append]
    refine ⟨hA.sublist (List.take_sublist _ _), ?_, ?_⟩
    · rw [List.pairwise_cons]
      refine ⟨?_, hA.sublist (List.drop_sublist _ _)⟩
      intro x hx
      rcases descending_total y x with h | h
      · exact h
      · exact absurd h (hafter x hx)
    · intro x hx z hz
      rcases List.mem_cons.mp hz with rfl | hz
      · exact hbefore x hx
      · exact List.Sorted.rel_of_mem_take_of_mem_drop hA hx hz

/-- Insertion of the single element of the left segment into the right one. -/
theorem insert_left_spec {B : List Object} (hB : B.Pairwise Descending) (x : Object)
    {k : Nat} (hk : k ≤ B.length) (h1 : 0 < k → ∀ z, B[k - 1]? = some z → ¬ Descending x z)
    (h2 : ∀ z, B[k]? = some z → Descending x z) :
    StablePerm (B.take k ++ x :: B.drop k) (x :: B) ∧
      (B.take k ++ x :: B.drop k).Pairwise Descending := by
  have hafter : ∀ y ∈ B.drop k, Descending x y := by
    intro y hy
    cases hz : B[k]? with
    | none =>
      rw [List.getElem?_eq_none_iff] at hz
      rw [List.drop_of_length_le hz] at hy
      simp at hy
    | some z => exact descending_trans (h2 z hz) (sorted_drop_ge hB hz y hy)
  have hbefore : ∀ y ∈ B.take k, ¬ Descending x y := by
    intro y hy hxy
    cases k with
    | zero => simp at hy
    | succ j =>
      cases hz : B[j]? with
      | none =>
        rw [List.getElem?_eq_none_iff] at hz
        omega
      | some z =>
        exact h1 (by omega) z (by simpa using hz) (descending_trans hxy (sorted_take_le hB hz y hy))
  constructor
  · have h3 : StablePerm (B.take k ++ [x]) ([x] ++ B.take k) :=
      stablePerm_exchange (fun u hu v hv => by
        simp only [List.mem_singleton] at hu
        subst hu
        exact timestamp_ne_of_not_descending (hbefore v hv))
    have h4 := stablePerm_append h3 (stablePerm_refl (B.drop k))
    have e1 : B.take k ++ [x] ++ B.drop k = B.take k ++ x :: B.drop k := by simp
    have e2 : [x] ++ B.take k ++ B.drop k = x :: B := by
      rw [List.append_assoc, List.take_append_drop]
      rfl
    rw [e1, e2] at h4
    exact h4
  · rw [List.pairwise_append]
    refine ⟨hB.sublist (List.take_sublist _ _), ?_, ?_⟩
    · rw [List.pairwise_cons]
      exact ⟨hafter, hB.sublist (List.drop_sublist _ _)⟩
    · intro y hy z hz
      rcases List.mem_cons.mp hz with rfl | hz
      · rcases descending_total y z with h | h
        · exact h
        · exact absurd h (hbefore y hy)
      · exact List.Sorted.rel_of_mem_take_of_mem_drop hB hy hz

/-- The two halves made by the rotation, once each is merged, give the merge of the
whole. -/
theorem split_spec {A B left right : List Object} (hA : A.Pairwise Descending)
    (hB : B.Pairwise Descending) (s k : Nat)
    (hcross1 : ∀ x ∈ A.take s, ∀ y ∈ B.drop k, Descending x y)
    (hcross2 : ∀ y ∈ B.take k, ∀ x ∈ A.drop s, ¬ Descending x y)
    (hleft : StablePerm left (A.take s ++ B.take k)) (hleftSorted : left.Pairwise Descending)
    (hright : StablePerm right (A.drop s ++ B.drop k))
    (hrightSorted : right.Pairwise Descending) :
    StablePerm (left ++ right) (A ++ B) ∧ (left ++ right).Pairwise Descending := by
  constructor
  · have h1 := stablePerm_append hleft hright
    have h2 : StablePerm (B.take k ++ A.drop s) (A.drop s ++ B.take k) :=
      stablePerm_exchange (fun x hx y hy he =>
        timestamp_ne_of_not_descending (hcross2 y hy x hx) he)
    have h3 := stablePerm_append (stablePerm_append (stablePerm_refl (A.take s)) h2)
      (stablePerm_refl (B.drop k))
    have e1 : A.take s ++ (B.take k ++ A.drop s) ++ B.drop k =
        A.take s ++ B.take k ++ (A.drop s ++ B.drop k) := by
      simp only [List.append_assoc]
    have e2 : A.take s ++ (A.drop s ++ B.take k) ++ B.drop k = A ++ B := by
      rw [← List.append_assoc, List.take_append_drop, List.append_assoc,
        List.take_append_drop]
    rw [e1, e2] at h3
    exact stablePerm_trans h1 h3
  · rw [List.pairwise_append]
    refine ⟨hleftSorted, hrightSorted, ?_⟩
    intro u hu v hv
    have hu2 := List.mem_append.mp (hleft.1.subset hu)
    have hv2 := List.mem_append.mp (hright.1.subset hv)
    rcases hu2 with hu2 | hu2
    · rcases hv2 with hv2 | hv2
      · exact List.Sorted.rel_of_mem_take_of_mem_drop hA hu2 hv2
      · exact hcross1 u hu2 v hv2
    · rcases hv2 with hv2 | hv2
      · rcases descending_total u v with h | h
        · exact h
        · exact absurd h (hcross2 u hu2 v hv2)
      · exact List.Sorted.rel_of_mem_take_of_mem_drop hB hu2 hv2

/-! ## The merge -/

theorem getElem?_some_of_lt {α : Type} {l : List α} {i : Nat} (h : i < l.length) :
    ∃ z, l[i]? = some z ∧ z ∈ l :=
  ⟨l[i], List.getElem?_eq_getElem h, List.getElem_mem h⟩

theorem lessAt_of {α : Type} (lt : α → α → Option Bool) {data : List α} {i j : Nat} {u v : α}
    (h1 : data[i]? = some u) (h2 : data[j]? = some v) : lessAt lt data i j = lt u v := by
  simp [lessAt, h1, h2]

theorem less_total {a b : Object} (ha : hasTimestamp a = true) (hb : hasTimestamp b = true) :
    ∃ v, less a b = some v :=
  ⟨_, less_of_hasTimestamp ha hb⟩

/-- The first special case of `symMerge_func`: the left segment is one element. -/
theorem symMerge_single_left (x : Object) (B : List Object) (hx : hasTimestamp x = true)
    (hgood : ∀ o ∈ B, hasTimestamp o = true) (hB : B.Pairwise Descending) :
    ∃ i, search (fun h => lessAt less (x :: B) h 0) (1 + B.length) 1 (1 + B.length) = some i ∧
      StablePerm (((x :: B).drop 1).take (i - 1) ++ (x :: B).take 1 ++ (x :: B).drop i)
        (x :: B) ∧
      (((x :: B).drop 1).take (i - 1) ++ (x :: B).take 1 ++ (x :: B).drop i).Pairwise
        Descending := by
  have htotal : ∀ h, 1 ≤ h → h < 1 + B.length →
      ∃ v, (fun h => lessAt less (x :: B) h 0) h = some v := by
    intro h h1 h2
    obtain ⟨z, hz, hzB⟩ := getElem?_some_of_lt (l := B) (i := h - 1) (by omega)
    have e : (x :: B)[h]? = some z := by
      obtain ⟨j, rfl⟩ : ∃ j, h = j + 1 := ⟨h - 1, by omega⟩
      simpa using hz
    simp only [lessAt_of less e (List.getElem?_cons_zero)]
    exact less_total (hgood z hzB) hx
  obtain ⟨i, hi, hlo, hhi, hb1, hb2⟩ :=
    search_spec _ (1 + B.length) 1 (1 + B.length) (by omega) (by omega) htotal
  refine ⟨i, hi, ?_⟩
  obtain ⟨k, rfl⟩ : ∃ k, i = k + 1 := ⟨i - 1, by omega⟩
  have e : ((x :: B).drop 1).take (k + 1 - 1) ++ (x :: B).take 1 ++ (x :: B).drop (k + 1) =
      B.take k ++ x :: B.drop k := by simp
  rw [e]
  apply insert_left_spec hB x (by omega)
  · intro hk z hz
    have h3 := hb1 (by omega)
    have e2 : (x :: B)[k + 1 - 1]? = some z := by
      obtain ⟨j, rfl⟩ : ∃ j, k = j + 1 := ⟨k - 1, by omega⟩
      simpa using hz
    have hzB : z ∈ B := List.getElem?_mem hz
    simp only [lessAt_of less e2 (List.getElem?_cons_zero)] at h3
    exact (less_true_iff (hgood z hzB) hx).mp h3
  · intro z hz
    have hk : k < B.length := (List.getElem?_eq_some.mp hz).1
    have h3 := hb2 (by omega)
    have e2 : (x :: B)[k + 1]? = some z := by simpa using hz
    have hzB : z ∈ B := List.getElem?_mem hz
    simp only [lessAt_of less e2 (List.getElem?_cons_zero)] at h3
    exact (less_false_iff (hgood z hzB) hx).mp h3

/-- The second special case of `symMerge_func`: the right segment is one element. -/
theorem symMerge_single_right (A : List Object) (y : Object) (hy : hasTimestamp y = true)
    (hgood : ∀ o ∈ A, hasTimestamp o = true) (hA : A.Pairwise Descending) :
    ∃ i, search (fun h => (lessAt less (A ++ [y]) A.length h).map not) (A.length + 1) 0
        A.length = some i ∧
      StablePerm ((A ++ [y]).take i ++ (A ++ [y]).drop A.length ++
        ((A ++ [y]).take A.length).drop i) (A ++ [y]) ∧
      ((A ++ [y]).take i ++ (A ++ [y]).drop A.length ++
        ((A ++ [y]).take A.length).drop i).Pairwise Descending := by
  have hy0 : (A ++ [y])[A.length]? = some y := by simp
  have hleft : ∀ (h : Nat) (z : Object), A[h]? = some z → (A ++ [y])[h]? = some z := by
    intro h z hz
    rw [List.getElem?_append_left (List.getElem?_eq_some.mp hz).1]
    exact hz
  have htotal : ∀ h, 0 ≤ h → h < A.length →
      ∃ v, (fun h => (lessAt less (A ++ [y]) A.length h).map not) h = some v := by
    intro h _ h2
    obtain ⟨z, hz, hzA⟩ := getElem?_some_of_lt h2
    simp only [lessAt_of less hy0 (hleft h z hz)]
    obtain ⟨v, hv⟩ := less_total hy (hgood z hzA)
    exact ⟨!v, by rw [hv]; rfl⟩
  obtain ⟨i, hi, _, hhi, hb1, hb2⟩ :=
    search_spec _ (A.length + 1) 0 A.length (by omega) (by omega) htotal
  refine ⟨i, hi, ?_⟩
  have e : (A ++ [y]).take i ++ (A ++ [y]).drop A.length ++ ((A ++ [y]).take A.length).drop i =
      A.take i ++ y :: A.drop i := by
    rw [List.take_append_of_le_length hhi, List.drop_left, List.take_left]
    simp
  rw [e]
  apply insert_right_spec hA y hhi
  · intro hk z hz
    have h3 := hb1 hk
    have hzA : z ∈ A := List.getElem?_mem hz
    simp only [lessAt_of less hy0 (hleft _ z hz)] at h3
    obtain ⟨v, hv⟩ := less_total hy (hgood z hzA)
    rw [hv] at h3
    cases v with
    | true => simp at h3
    | false => exact (less_false_iff hy (hgood z hzA)).mp hv
  · intro z hz
    have hk : i < A.length := (List.getElem?_eq_some.mp hz).1
    have h3 := hb2 hk
    have hzA : z ∈ A := List.getElem?_mem hz
    simp only [lessAt_of less hy0 (hleft _ z hz)] at h3
    obtain ⟨v, hv⟩ := less_total hy (hgood z hzA)
    rw [hv] at h3
    cases v with
    | true => exact (less_true_iff hy (hgood z hzA)).mp hv
    | false => simp at h3

/-- The binary search of the general case of `symMerge_func`: it returns, and the split it
finds separates the entries that go to the first half from those that go to the second. -/
theorem symMerge_search (A B : List Object) (hA2 : 2 ≤ A.length) (hB2 : 2 ≤ B.length)
    (hgA : ∀ o ∈ A, hasTimestamp o = true) (hgB : ∀ o ∈ B, hasTimestamp o = true)
    (hsA : A.Pairwise Descending) (hsB : B.Pairwise Descending)
    (mid : Nat) (hmid : mid = (A.length + B.length) / 2) :
    ∃ s, search (fun c => Option.map not
          (lessAt less (A ++ B) (mid + A.length - 1 - c) c)) (A.length + B.length)
        (if A.length > mid then mid + A.length - (A.length + B.length) else 0)
        (if A.length > mid then mid else A.length) = some s ∧
      s ≤ A.length ∧ s ≤ mid ∧ mid - s ≤ B.length ∧
      (∀ x ∈ A.take s, ∀ y ∈ B.drop (mid + A.length - s - A.length), Descending x y) ∧
      (∀ y ∈ B.take (mid + A.length - s - A.length), ∀ x ∈ A.drop s, ¬ Descending x y) := by
  have hidx : ∀ c, (if A.length > mid then mid + A.length - (A.length + B.length) else 0) ≤ c →
      c < (if A.length > mid then mid else A.length) →
      ∃ u v, (A ++ B)[mid + A.length - 1 - c]? = some u ∧ (A ++ B)[c]? = some v ∧
        B[mid - 1 - c]? = some u ∧ A[c]? = some v ∧ u ∈ B ∧ v ∈ A := by
    intro c hc1 hc2
    have hcA : c < A.length := by split_ifs at hc2 <;> omega
    have hcB : mid - 1 - c < B.length := by split_ifs at hc1 hc2 <;> omega
    have hge : A.length ≤ mid + A.length - 1 - c := by split_ifs at hc1 hc2 <;> omega
    have hsub : mid + A.length - 1 - c - A.length = mid - 1 - c := by omega
    obtain ⟨v, hv, hvA⟩ := getElem?_some_of_lt hcA
    obtain ⟨u, hu, huB⟩ := getElem?_some_of_lt hcB
    refine ⟨u, v, ?_, ?_, hu, hv, huB, hvA⟩
    · rw [List.getElem?_append_right hge, hsub]
      exact hu
    · rw [List.getElem?_append_left hcA]
      exact hv
  have htotal : ∀ c, (if A.length > mid then mid + A.length - (A.length + B.length) else 0) ≤ c →
      c < (if A.length > mid then mid else A.length) →
      ∃ w, (fun c => Option.map not
        (lessAt less (A ++ B) (mid + A.length - 1 - c) c)) c = some w := by
    intro c hc1 hc2
    obtain ⟨u, v, hu, hv, _, _, huB, hvA⟩ := hidx c hc1 hc2
    simp only [lessAt_of less hu hv]
    obtain ⟨w, hw⟩ := less_total (hgB u huB) (hgA v hvA)
    exact ⟨!w, by rw [hw]; rfl⟩
  obtain ⟨s, hs, hlo, hhi, hb1, hb2⟩ := search_spec _ (A.length + B.length) _ _
    (by split_ifs <;> omega) (by split_ifs <;> omega) htotal
  have hsA' : s ≤ A.length := by split_ifs at hhi <;> omega
  have hsmid : s ≤ mid := by split_ifs at hhi <;> omega
  have hk : mid + A.length - s - A.length = mid - s := by omega
  refine ⟨s, hs, hsA', hsmid, by split_ifs at hlo <;> omega, ?_, ?_⟩
  · rw [hk]
    intro x hx y hy
    by_cases hcase : (if A.length > mid then mid + A.length - (A.length + B.length) else 0) < s
    · obtain ⟨u, v, hu, hv, hu', hv', huB, hvA⟩ := hidx (s - 1) (by omega) (by omega)
      have h3 := hb1 hcase
      simp only [lessAt_of less hu hv] at h3
      obtain ⟨w, hw⟩ := less_total (hgB u huB) (hgA v hvA)
      rw [hw] at h3
      cases w with
      | true => simp at h3
      | false =>
        have hvu : Descending v u := (less_false_iff (hgB u huB) (hgA v hvA)).mp hw
        have e1 : mid - 1 - (s - 1) = mid - s := by omega
        rw [e1] at hu'
        have hx2 : x ∈ A.take (s - 1 + 1) := by
          have : s - 1 + 1 = s := by omega
          rw [this]
          exact hx
        exact descending_trans (descending_trans (sorted_take_le hsA hv' x hx2) hvu)
          (sorted_drop_ge hsB hu' y hy)
    · exfalso
      split_ifs at hcase hlo with hmm
      · have : B.length ≤ mid - s := by omega
        rw [List.drop_of_length_le this] at hy
        simp at hy
      · have : s = 0 := by omega
        subst this
        simp at hx
  · rw [hk]
    intro y hy x hx hxy
    by_cases hcase : s < (if A.length > mid then mid else A.length)
    · obtain ⟨u, v, hu, hv, hu', hv', huB, hvA⟩ := hidx s hlo hcase
      have h3 := hb2 hcase
      simp only [lessAt_of less hu hv] at h3
      obtain ⟨w, hw⟩ := less_total (hgB u huB) (hgA v hvA)
      rw [hw] at h3
      cases w with
      | false => simp at h3
      | true =>
        have hvu : ¬ Descending v u := (less_true_iff (hgB u huB) (hgA v hvA)).mp hw
        have hy2 : y ∈ B.take (mid - 1 - s + 1) := by
          have : mid - 1 - s + 1 = mid - s := by split_ifs at hcase <;> omega
          rw [this]
          exact hy
        exact hvu (descending_trans (descending_trans (sorted_drop_ge hsA hv' x hx) hxy)
          (sorted_take_le hsB hu' y hy2))
    · split_ifs at hcase hhi with hmm
      · have : mid - s = 0 := by omega
        rw [this] at hy
        simp at hy
      · have : A.length ≤ s := by omega
        rw [List.drop_of_length_le this] at hx
        simp at hx

theorem symMerge_spec : ∀ (fuel : Nat) (A B : List Object), A ≠ [] → B ≠ [] →
    A.length + B.length ≤ fuel → (∀ o ∈ A, hasTimestamp o = true) →
    (∀ o ∈ B, hasTimestamp o = true) → A.Pairwise Descending → B.Pairwise Descending →
    ∃ r, symMerge_func less fuel A B = some r ∧ StablePerm r (A ++ B) ∧
      r.Pairwise Descending := by
  intro fuel
  induction fuel with
  | zero =>
    intro A B hA _ hlen
    cases A with
    | nil => exact absurd rfl hA
    | cons x A => simp at hlen
  | succ fuel ih =>
    intro A B hAne hBne hlen hgA hgB hsA hsB
    have hApos : 0 < A.length := List.length_pos.mpr hAne
    have hBpos : 0 < B.length := List.length_pos.mpr hBne
    rw [symMerge_func]
    simp only []
    by_cases hm : A.length = 1
    · obtain ⟨x, rfl⟩ := List.length_eq_one.mp hm
      simp only [hm, if_true]
      obtain ⟨i, hi, hperm, hsorted⟩ :=
        symMerge_single_left x B (hgA x (List.mem_singleton_self x)) hgB hsB
      exact ⟨_, by rw [show [x] ++ B = x :: B from rfl, hi], hperm, hsorted⟩
    · simp only [hm, if_false]
      by_cases hb : A.length + B.length - A.length = 1
      · simp only [hb, if_true]
        have hB1 : B.length = 1 := by omega
        obtain ⟨y, rfl⟩ := List.length_eq_one.mp hB1
        obtain ⟨i, hi, hperm, hsorted⟩ :=
          symMerge_single_right A y (hgB y (List.mem_singleton_self y)) hgA hsA
        exact ⟨_, by rw [show A.length + [y].length = A.length + 1 from rfl, hi], hperm,
          hsorted⟩
      · simp only [hb, if_false]
        generalize hmid : (A.length + B.length) / 2 = mid
        obtain ⟨s, hs, hsA', hsmid, hkB, hcross1, hcross2⟩ :=
          symMerge_search A B (by omega) (by omega) hgA hgB hsA hsB mid hmid.symm
        rw [hs]
        simp only []
        generalize hk : mid + A.length - s - A.length = k at hcross1 hcross2 ⊢
        have hkval : k = mid - s := by omega
        have hleft : ∃ left, (if 0 < s ∧ s < mid then
              symMerge_func less fuel (A.take s) (B.take k)
            else some (A.take s ++ B.take k)) = some left ∧
            StablePerm left (A.take s ++ B.take k) ∧ left.Pairwise Descending := by
          by_cases hc : 0 < s ∧ s < mid
          · simp only [hc, and_self, if_true]
            apply ih
            · apply List.ne_nil_of_length_pos
              rw [List.length_take]
              omega
            · apply List.ne_nil_of_length_pos
              rw [List.length_take]
              omega
            · rw [List.length_take, List.length_take]
              omega
            · exact fun o ho => hgA o (List.mem_of_mem_take ho)
            · exact fun o ho => hgB o (List.mem_of_mem_take ho)
            · exact hsA.sublist (List.take_sublist _ _)
            · exact hsB.sublist (List.take_sublist _ _)
          · rw [if_neg hc]
            refine ⟨_, rfl, stablePerm_refl _, ?_⟩
            by_cases hs0 : s = 0
            · subst hs0
              simpa using hsB.sublist (List.take_sublist _ _)
            · have hk0 : k = 0 := by omega
              subst hk0
              simpa using hsA.sublist (List.take_sublist _ _)
        have hright : ∃ right, (if mid < mid + A.length - s ∧
              mid + A.length - s < A.length + B.length then
              symMerge_func less fuel (A.drop s) (B.drop k)
            else some (A.drop s ++ B.drop k)) = some right ∧
            StablePerm right (A.drop s ++ B.drop k) ∧ right.Pairwise Descending := by
          by_cases hc : mid < mid + A.length - s ∧ mid + A.length - s < A.length + B.length
          · simp only [hc, and_self, if_true]
            apply ih
            · apply List.ne_nil_of_length_pos
              rw [List.length_drop]
              omega
            · apply List.ne_nil_of_length_pos
              rw [List.length_drop]
              omega
            · rw [List.length_drop, List.length_drop]
              omega
            · exact fun o ho => hgA o (List.mem_of_mem_drop ho)
            · exact fun o ho => hgB o (List.mem_of_mem_drop ho)
            · exact hsA.sublist (List.drop_sublist _ _)
            · exact hsB.sublist (List.drop_sublist _ _)
          · rw [if_neg hc]
            refine ⟨_, rfl, stablePerm_refl _, ?_⟩
            by_cases hs0 : A.length ≤ s
            · rw [List.drop_of_length_le hs0]
              simpa using hsB.sublist (List.drop_sublist _ _)
            · have hk0 : B.length ≤ k := by omega
              rw [List.drop_of_length_le hk0]
              simpa using hsA.sublist (List.drop_sublist _ _)
        obtain ⟨left, hl, hlperm, hlsorted⟩ := hleft
        obtain ⟨right, hr, hrperm, hrsorted⟩ := hright
        rw [hl]
        simp only []
        rw [hr]
        simp only []
        have := split_spec hsA hsB s k hcross1 hcross2 hlperm hlsorted hrperm hrsorted
        exact ⟨_, rfl, this.1, this.2⟩

/-! ## The blocks -/

/-- Insertion sort of a block whose keys all carry a timestamp. -/
theorem insertionSort_func_spec (blk : List Object) (h : ∀ o ∈ blk, hasTimestamp o = true) :
    ∃ r, insertionSort_func less blk = some r ∧ StablePerm r blk ∧
      r.Pairwise Descending := by
  cases blk with
  | nil => exact ⟨[], rfl, stablePerm_refl _, List.Pairwise.nil⟩
  | cons first rest =>
    obtain ⟨r, hr, hperm, hsorted, hstable⟩ :=
      insertLoop_spec rest [first]
        (fun y hy => h y (by simp at hy; simp [hy]))
        (fun y hy => h y (List.mem_cons_of_mem _ hy))
    exact ⟨r, hr, ⟨by simpa using hperm, fun t => by simpa using hstable t⟩,
      hsorted (List.pairwise_singleton _ _)⟩

/-- Insertion sort of a block of two or more entries panics when one key has no timestamp. -/
theorem insertionSort_func_panics (blk : List Object) (hlen : 2 ≤ blk.length)
    (hbad : ∃ o ∈ blk, hasTimestamp o = false) : insertionSort_func less blk = none := by
  cases blk with
  | nil => simp at hlen
  | cons first rest =>
    cases rest with
    | nil => simp at hlen
    | cons x rest =>
      obtain ⟨o, ho, hbo⟩ := hbad
      rcases List.mem_cons.mp ho with rfl | hmem
      · simp [insertionSort_func, insertLoop, sink, less_right_none x hbo]
      · exact insertLoop_panics (x :: rest) [first] (by simp) ⟨o, hmem, hbo⟩

/-- The blocks of a non-empty slice: full blocks of 20 followed by a last block of 1 to 20
entries; together they are the slice. -/
theorem blocksOf_shape {α : Type} : ∀ (fuel : Nat) (data : List α), data ≠ [] →
    data.length ≤ fuel →
    ∃ init last, blocksOf 20 fuel data = init ++ [last] ∧ (∀ b ∈ init, b.length = 20) ∧
      1 ≤ last.length ∧ last.length ≤ 20 ∧ init.flatten ++ last = data := by
  intro fuel
  induction fuel with
  | zero =>
    intro data hne hlen
    exact absurd (List.length_eq_zero.mp (Nat.le_zero.mp hlen)) hne
  | succ fuel ih =>
    intro data hne hlen
    have hpos : 0 < data.length := List.length_pos.mpr hne
    by_cases hsmall : data.length ≤ 20
    · refine ⟨[], data, ?_, by simp, hpos, hsmall, by simp⟩
      have : ¬ data.length = 0 := by omega
      simp [blocksOf, hsmall, this]
    · have hdrop : data.drop 20 ≠ [] := by
        apply List.ne_nil_of_length_pos
        rw [List.length_drop]
        omega
      obtain ⟨init, last, hb, hinit, h1, h2, hflat⟩ := ih (data.drop 20) hdrop
        (by rw [List.length_drop]; omega)
      refine ⟨data.take 20 :: init, last, ?_, ?_, h1, h2, ?_⟩
      · simp [blocksOf, hsmall, hb]
      · intro b hb2
        rcases List.mem_cons.mp hb2 with rfl | hb2
        · rw [List.length_take]
          omega
        · exact hinit b hb2
      · rw [List.flatten_cons, List.append_assoc, hflat, List.take_append_drop]

theorem blocksOf_nil {α : Type} (fuel : Nat) : blocksOf 20 fuel ([] : List α) = [] := by
  cases fuel <;> simp [blocksOf]

theorem sortBlocks_spec : ∀ (blocks : List (List Object)),
    (∀ b ∈ blocks, b ≠ [] ∧ ∀ o ∈ b, hasTimestamp o = true) →
    ∃ sorted, sortBlocks less blocks = some sorted ∧ SortedBlocks sorted ∧
      StablePerm sorted.flatten blocks.flatten ∧ sorted.length = blocks.length ∧
      ∀ s ∈ sorted, ∃ b ∈ blocks, s.length = b.length := by
  intro blocks
  induction blocks with
  | nil =>
    intro _
    exact ⟨[], rfl, fun b hb => absurd hb (List.not_mem_nil b), stablePerm_refl _, rfl,
      fun s hs => absurd hs (List.not_mem_nil s)⟩
  | cons blk rest ih =>
    intro h
    obtain ⟨s, hs, hperm, hsorted⟩ :=
      insertionSort_func_spec blk (h blk (List.mem_cons_self _ _)).2
    obtain ⟨sorted, hrest, hinv, hflat, hcount, hlens⟩ :=
      ih (fun b hb => h b (List.mem_cons_of_mem _ hb))
    refine ⟨s :: sorted, ?_, ?_, ?_, by simp [hcount], ?_⟩
    · simp [sortBlocks, hs, hrest]
    · intro b hb
      rcases List.mem_cons.mp hb with rfl | hb
      · refine ⟨?_, fun o ho => (h blk (List.mem_cons_self _ _)).2 o (hperm.1.subset ho),
          hsorted⟩
        intro hnil
        have := hperm.1.length_eq
        rw [hnil] at this
        exact (h blk (List.mem_cons_self _ _)).1 (List.length_eq_zero.mp this.symm)
      · exact hinv b hb
    · rw [List.flatten_cons, List.flatten_cons]
      exact stablePerm_append hperm hflat
    · intro b hb
      rcases List.mem_cons.mp hb with rfl | hb
      · exact ⟨blk, List.mem_cons_self _ _, hperm.1.length_eq⟩
      · obtain ⟨c, hc, hbc⟩ := hlens b hb
        exact ⟨c, List.mem_cons_of_mem _ hc, hbc⟩

theorem sortBlocks_panics : ∀ (blocks : List (List Object)),
    (∃ b ∈ blocks, 2 ≤ b.length ∧ ∃ o ∈ b, hasTimestamp o = false) →
    sortBlocks less blocks = none := by
  intro blocks
  induction blocks with
  | nil => intro h; simp at h
  | cons blk rest ih =>
    intro h
    obtain ⟨b, hb, hlen, hbad⟩ := h
    rcases List.mem_cons.mp hb with rfl | hb
    · simp [sortBlocks, insertionSort_func_panics b hlen hbad]
    · have := ih ⟨b, hb, hlen, hbad⟩
      simp only [sortBlocks, this]
      cases insertionSort_func less blk <;> rfl

/-! ## The merge passes -/

theorem mergePass_spec : ∀ (blocks : List (List Object)), SortedBlocks blocks →
    ∃ next, mergePass less blocks = some next ∧ SortedBlocks next ∧
      StablePerm next.flatten blocks.flatten ∧ next.length ≤ blocks.length ∧
      (2 ≤ blocks.length → next.length < blocks.length)
  | [], h => ⟨[], rfl, h, stablePerm_refl _, le_refl _, fun h2 => by simp at h2⟩
  | [b], h => ⟨[b], rfl, h, stablePerm_refl _, le_refl _, fun h2 => by simp at h2⟩
  | b1 :: b2 :: rest, h => by
    have h1 := h b1 (List.mem_cons_self _ _)
    have h2 := h b2 (List.mem_cons_of_mem _ (List.mem_cons_self _ _))
    obtain ⟨r, hr, hperm, hsorted⟩ := symMerge_spec (b1.length + b2.length) b1 b2 h1.1 h2.1
      (le_refl _) h1.2.1 h2.2.1 h1.2.2 h2.2.2
    obtain ⟨next, hnext, hinv, hflat, hlen, _⟩ := mergePass_spec rest
      (fun b hb => h b (List.mem_cons_of_mem _ (List.mem_cons_of_mem _ hb)))
    refine ⟨r :: next, ?_, ?_, ?_, ?_, ?_⟩
    · simp [mergePass, hr, hnext]
    · intro b hb
      rcases List.mem_cons.mp hb with rfl | hb
      · refine ⟨?_, ?_, hsorted⟩
        · intro hnil
          have := hperm.1.length_eq
          rw [hnil, List.length_append] at this
          have := List.length_pos.mpr h1.1
          simp at *
          omega
        · intro o ho
          rcases List.mem_append.mp (hperm.1.subset ho) with ho | ho
          · exact h1.2.1 o ho
          · exact h2.2.1 o ho
      · exact hinv b hb
    · have := stablePerm_append hperm hflat
      simpa [List.flatten_cons, List.append_assoc] using this
    · simp only [List.length_cons]
      omega
    · intro _
      simp only [List.length_cons]
      omega

theorem mergeLoop_step {α : Type} (lt : α → α → Option Bool) (fuel : Nat)
    (blocks : List (List α)) (h : 2 ≤ blocks.length) :
    mergeLoop lt (fuel + 1) blocks =
      match mergePass lt blocks with
      | none => none
      | some next => mergeLoop lt fuel next := by
  match blocks, h with
  | _ :: _ :: _, _ => rfl

theorem mergeLoop_spec : ∀ (fuel : Nat) (blocks : List (List Object)),
    blocks.length ≤ fuel + 1 → SortedBlocks blocks →
    ∃ r, mergeLoop less fuel blocks = some r ∧ StablePerm r blocks.flatten ∧
      r.Pairwise Descending := by
  intro fuel
  induction fuel with
  | zero =>
    intro blocks hlen hinv
    match blocks, hlen, hinv with
    | [], _, _ => exact ⟨[], rfl, stablePerm_refl _, List.Pairwise.nil⟩
    | [b], _, hinv =>
      exact ⟨b, rfl, by simpa using stablePerm_refl b, (hinv b (List.mem_singleton_self b)).2.2⟩
  | succ fuel ih =>
    intro blocks hlen hinv
    by_cases h2 : 2 ≤ blocks.length
    · obtain ⟨next, hnext, hinv2, hflat, _, hlt⟩ := mergePass_spec blocks hinv
      obtain ⟨r, hr, hperm, hsorted⟩ := ih next (by have := hlt h2; omega) hinv2
      refine ⟨r, ?_, stablePerm_trans hperm hflat, hsorted⟩
      rw [mergeLoop_step less fuel blocks h2, hnext]
      exact hr
    · match blocks, h2, hinv with
      | [], _, _ => exact ⟨[], rfl, stablePerm_refl _, List.Pairwise.nil⟩
      | [b], _, hinv =>
        exact ⟨b, rfl, by simpa using stablePerm_refl b,
          (hinv b (List.mem_singleton_self b)).2.2⟩
      | _ :: _ :: _, h2, _ => simp at h2

/-- With every key carrying a timestamp the stable sort returns, and its result is a
stable descending rearrangement of the slice. -/
theorem stable_func_spec (l : List Object) (h : ∀ o ∈ l, hasTimestamp o = true) :
    ∃ r, stable_func less l = some r ∧ StablePerm r l ∧ r.Pairwise Descending := by
  by_cases hl : l = []
  · subst hl
    refine ⟨[], ?_, stablePerm_refl _, List.Pairwise.nil⟩
    simp [stable_func, blocksOf_nil, sortBlocks, mergeLoop]
  · obtain ⟨init, last, hb, hinit, h1, _, hflat⟩ := blocksOf_shape l.length l hl (le_refl _)
    have hflat2 : (blocksOf 20 l.length l).flatten = l := by
      rw [hb, List.flatten_append]
      simpa using hflat
    have hgood : ∀ b ∈ blocksOf 20 l.length l, b ≠ [] ∧ ∀ o ∈ b, hasTimestamp o = true := by
      intro b hbm
      refine ⟨?_, fun o ho => h o ?_⟩
      · rw [hb] at hbm
        rcases List.mem_append.mp hbm with hbm | hbm
        · apply List.ne_nil_of_length_pos
          rw [hinit b hbm]
          omega
        · rw [List.mem_singleton.mp hbm]
          exact List.ne_nil_of_length_pos (by omega)
      · rw [← hflat2]
        exact List.mem_flatten.mpr ⟨b, hbm, ho⟩
    obtain ⟨sorted, hs, hinv, hperm, _, _⟩ := sortBlocks_spec _ hgood
    obtain ⟨r, hr, hperm2, hsorted⟩ := mergeLoop_spec sorted.length sorted (by omega) hinv
    refine ⟨r, ?_, ?_, hsorted⟩
    · simp only [stable_func, hs]
      exact hr
    · have := stablePerm_trans hperm2 hperm
      rw [hflat2] at this
      exact this

/-! ## A key without a timestamp -/

/-- Merging a block of two or more entries with a single entry whose key has no timestamp
panics: the binary search compares that entry first. -/
theorem symMerge_bad_right (A : List Object) (z : Object) (hA : 2 ≤ A.length)
    (hz : hasTimestamp z = false) :
    symMerge_func less (A.length + [z].length) A [z] = none := by
  have hP : ∀ h, (fun h => (lessAt less (A ++ [z]) A.length h).map not) h = none := by
    intro h
    have hz0 : (A ++ [z])[A.length]? = some z := by simp
    simp only [lessAt, hz0]
    cases (A ++ [z])[h]? with
    | none => rfl
    | some v => simp [less_left_none v hz]
  have hs := search_none _ A.length 0 A.length (by omega) hP
  have hm : ¬ A.length = 1 := by omega
  have hb : A.length + [z].length - A.length = 1 := by simp
  show symMerge_func less (A.length + 1) A [z] = none
  rw [symMerge_func]
  simp only [hm, if_false, hb, if_true]
  rw [show A.length + [z].length = A.length + 1 from rfl, hs]

theorem mergePass_panics (z : Object) (hz : hasTimestamp z = false) :
    ∀ (init : List (List Object)), init ≠ [] → SortedBlocks init →
      (∀ b ∈ init, 2 ≤ b.length) →
      mergePass less (init ++ [[z]]) = none ∨
      ∃ next, mergePass less (init ++ [[z]]) = some (next ++ [[z]]) ∧ next ≠ [] ∧
        SortedBlocks next ∧ (∀ b ∈ next, 2 ≤ b.length) ∧ next.length < init.length
  | [], h, _, _ => absurd rfl h
  | [b1], _, _, hlen => by
    left
    have hm : symMerge_func less (b1.length + 1) b1 [z] = none :=
      symMerge_bad_right b1 z (hlen b1 (List.mem_singleton_self b1)) hz
    simp [mergePass, hm]
  | b1 :: b2 :: rest, _, hinv, hlen => by
    have h1 := hinv b1 (List.mem_cons_self _ _)
    have h2 := hinv b2 (List.mem_cons_of_mem _ (List.mem_cons_self _ _))
    obtain ⟨r, hr, hperm, hsorted⟩ := symMerge_spec (b1.length + b2.length) b1 b2 h1.1 h2.1
      (le_refl _) h1.2.1 h2.2.1 h1.2.2 h2.2.2
    have hrlen : 2 ≤ r.length := by
      have := hperm.1.length_eq
      rw [List.length_append] at this
      have := hlen b1 (List.mem_cons_self _ _)
      omega
    have hrinv : r ≠ [] ∧ (∀ o ∈ r, hasTimestamp o = true) ∧ r.Pairwise Descending := by
      refine ⟨List.ne_nil_of_length_pos (by omega), ?_, hsorted⟩
      intro o ho
      rcases List.mem_append.mp (hperm.1.subset ho) with ho | ho
      · exact h1.2.1 o ho
      · exact h2.2.1 o ho
    have hstep : mergePass less (b1 :: b2 :: rest ++ [[z]]) =
        (mergePass less (rest ++ [[z]])).map (r :: ·) := by
      simp [mergePass, hr]
    by_cases hrest : rest = []
    · subst hrest
      right
      refine ⟨[r], ?_, by simp, ?_, ?_, by simp⟩
      · rw [hstep]
        rfl
      · intro b hb
        rw [List.mem_singleton.mp hb]
        exact hrinv
      · intro b hb
        rw [List.mem_singleton.mp hb]
        exact hrlen
    · rcases mergePass_panics z hz rest hrest
          (fun b hb => hinv b (List.mem_cons_of_mem _ (List.mem_cons_of_mem _ hb)))
          (fun b hb => hlen b (List.mem_cons_of_mem _ (List.mem_cons_of_mem _ hb)))
        with hnone | ⟨next, hnext, _, hinv2, hlen2, hlt⟩
      · left
        rw [hstep, hnone]
        rfl
      · right
        refine ⟨r :: next, ?_, by simp, ?_, ?_, ?_⟩
        · rw [hstep, hnext]
          rfl
        · intro b hb
          rcases List.mem_cons.mp hb with rfl | hb
          · exact hrinv
          · exact hinv2 b hb
        · intro b hb
          rcases List.mem_cons.mp hb with rfl | hb
          · exact hrlen
          · exact hlen2 b hb
        · simp only [List.length_cons]
          omega

theorem mergeLoop_panics (z : Object) (hz : hasTimestamp z = false) :
    ∀ (fuel : Nat) (init : List (List Object)), init ≠ [] → SortedBlocks init →
      (∀ b ∈ init, 2 ≤ b.length) → init.length ≤ fuel →
      mergeLoop less fuel (init ++ [[z]]) = none := by
  intro fuel
  induction fuel with
  | zero =>
    intro init hne _ _ hlen
    exact absurd (List.length_eq_zero.mp (Nat.le_zero.mp hlen)) hne
  | succ fuel ih =>
    intro init hne hinv hlen hfuel
    have h2 : 2 ≤ (init ++ [[z]]).length := by
      have := List.length_pos.mpr hne
      rw [List.length_append]
      simp
      omega
    rw [mergeLoop_step less fuel _ h2]
    rcases mergePass_panics z hz init hne hinv hlen with hnone | ⟨next, hnext, hne2, hinv2, hlen2, hlt⟩
    · rw [hnone]
    · rw [hnext]
      exact ih next hne2 hinv2 hlen2 (by omega)

theorem sortBlocks_append_single {α : Type} (lt : α → α → Option Bool) (z : α) :
    ∀ (init sorted : List (List α)), sortBlocks lt init = some sorted →
      sortBlocks lt (init ++ [[z]]) = some (sorted ++ [[z]]) := by
  intro init
  induction init with
  | nil =>
    intro sorted h
    simp only [sortBlocks, Option.some.injEq] at h
    subst h
    rfl
  | cons blk rest ih =>
    intro sorted h
    simp only [sortBlocks, List.cons_append] at h ⊢
    cases hb : insertionSort_func lt blk with
    | none => simp [hb] at h
    | some s =>
      simp only [hb] at h ⊢
      cases hr : sortBlocks lt rest with
      | none => simp [hr] at h
      | some sr =>
        simp only [hr, Option.map_some', Option.some.injEq] at h
        subst h
        simp [ih sr hr]

/-- With two or more entries, one key without a timestamp makes the stable sort panic. -/
theorem stable_func_panics (l : List Object) (hlen : 2 ≤ l.length)
    (hbad : ∃ o ∈ l, hasTimestamp o = false) : stable_func less l = none := by
  have hl : l ≠ [] := List.ne_nil_of_length_pos (by omega)
  obtain ⟨init, last, hb, hinit, h1, _, hflat⟩ := blocksOf_shape l.length l hl (le_refl _)
  by_cases hcase : ∃ b ∈ blocksOf 20 l.length l, 2 ≤ b.length ∧ ∃ o ∈ b, hasTimestamp o = false
  · simp [stable_func, sortBlocks_panics _ hcase]
  · rw [hb] at hcase
    obtain ⟨z, hzl, hz⟩ := hbad
    have hgood : ∀ b ∈ init, b ≠ [] ∧ ∀ o ∈ b, hasTimestamp o = true := by
      intro b hbi
      refine ⟨List.ne_nil_of_length_pos (by rw [hinit b hbi]; omega), ?_⟩
      intro o ho
      by_contra hne
      exact hcase ⟨b, List.mem_append_left _ hbi, by rw [hinit b hbi]; omega, o, ho, by simpa using hne⟩
    have hzlast : z ∈ last := by
      rw [← hflat] at hzl
      rcases List.mem_append.mp hzl with h | h
      · obtain ⟨b, hbi, hzb⟩ := List.mem_flatten.mp h
        have := (hgood b hbi).2 z hzb
        rw [hz] at this
        cases this
      · exact h
    have hlast1 : last.length = 1 := by
      by_contra hne
      exact hcase ⟨last, List.mem_append_right _ (List.mem_singleton_self _), by omega, z,
        hzlast, hz⟩
    obtain ⟨w, rfl⟩ := List.length_eq_one.mp hlast1
    have hwz : z = w := by simpa using hzlast
    subst hwz
    have hinitne : init ≠ [] := by
      rintro rfl
      have := congrArg List.length hflat
      simp at this
      omega
    obtain ⟨sorted, hs, hinv, _, hcount, hlens⟩ := sortBlocks_spec init hgood
    have hsorted2 : ∀ b ∈ sorted, 2 ≤ b.length := by
      intro b hbs
      obtain ⟨c, hc, hbc⟩ := hlens b hbs
      rw [hbc, hinit c hc]
      omega
    have hsne : sorted ≠ [] := by
      rintro rfl
      exact hinitne (List.length_eq_zero.mp hcount.symm)
    simp only [stable_func, hb, sortBlocks_append_single less z init sorted hs]
    exact mergeLoop_panics z hz _ sorted hsne hinv hsorted2 (by rw [List.length_append]; omega)

/-! ## `sort.SliceStable` with the comparator of the handler -/

/-- With every key carrying a timestamp the sort returns, and its result is a stable
descending rearrangement of the listing. -/
theorem SliceStable_spec (l : List Object) (h : ∀ o ∈ l, hasTimestamp o = true) :
    ∃ r, SliceStable l less = some r ∧ r.Perm l ∧ r.Pairwise Descending ∧
      ∀ t, r.filter (fun o => decide (timestamp o = t)) =
        l.filter (fun o => decide (timestamp o = t)) := by
  obtain ⟨r, hr, hperm, hsorted⟩ := stable_func_spec l h
  exact ⟨r, hr, hperm.1, hsorted, hperm.2⟩

/-- A slice of one element is returned as it is: the comparator is never called. -/
theorem SliceStable_single {α : Type} (x : α) (lt : α → α → Option Bool) :
    SliceStable [x] lt = some [x] := rfl

/-- With two or more entries, one key without a timestamp makes the comparator panic. -/
theorem SliceStable_panics (l : List Object) (hlen : 2 ≤ l.length)
    (hbad : ∃ o ∈ l, hasTimestamp o = false) : SliceStable l less = none :=
  stable_func_panics l hlen hbad

/-! ## The selector -/

theorem take_fileCount (l : List Object) : l.take (fileCount l) = l.take 8 := by
  unfold fileCount
  split_ifs with h
  · rfl
  · rw [List.take_length, List.take_of_length_le (by omega)]

theorem scanFile_eq (m : FileMap) (f : Object) :
    scanFile m f = match angleFor m f with
      | none => m
      | some a => m.set a f := by
  unfold scanFile angleFor angles
  simp only [List.find?]
  by_cases h1 : (stringsContains f.Key camFront && (m camFront).isNone) = true
  · simp [h1]
  · by_cases h2 : (stringsContains f.Key camBack && (m camBack).isNone) = true
    · simp [h1, h2]
    · by_cases h3 : (stringsContains f.Key camLeft && (m camLeft).isNone) = true
      · simp [h1, h2, h3]
      · by_cases h4 : (stringsContains f.Key camRight && (m camRight).isNone) = true
        · simp [h1, h2, h3, h4]
        · simp [h1, h2, h3, h4]

theorem angleFor_some {m : FileMap} {f : Object} {a : GoString} (h : angleFor m f = some a) :
    a ∈ angles ∧ stringsContains f.Key a = true ∧ m a = none := by
  unfold angleFor at h
  have h1 := List.find?_some h
  have h2 := List.mem_of_find?_eq_some h
  simp at h1
  exact ⟨h2, h1.1, h1.2⟩

/-- A winner is never replaced by the loop body. -/
theorem scanFile_keeps {m : FileMap} {a : GoString} {x : Object} (f : Object)
    (h : m a = some x) : scanFile m f a = some x := by
  rw [scanFile_eq]
  cases hf : angleFor m f with
  | none => exact h
  | some b =>
    have hb := (angleFor_some hf).2.2
    have hne : a ≠ b := by
      rintro rfl
      rw [h] at hb
      cases hb
    simp [FileMap.set, hne, h]

/-- What the loop body records was absent before and is recorded under `angleFor`. -/
theorem scanFile_some {m : FileMap} {f x : Object} {a : GoString}
    (h : scanFile m f a = some x) : m a = some x ∨ (x = f ∧ angleFor m f = some a) := by
  rw [scanFile_eq] at h
  cases hf : angleFor m f with
  | none => rw [hf] at h; exact Or.inl h
  | some b =>
    rw [hf] at h
    by_cases hab : a = b
    · subst hab
      simp [FileMap.set] at h
      exact Or.inr ⟨h.symm, rfl⟩
    · simp [FileMap.set, hab] at h
      exact Or.inl h

/-- The loop body records the file under `angleFor`. -/
theorem scanFile_sets {m : FileMap} {f : Object} {a : GoString}
    (h : angleFor m f = some a) : scanFile m f a = some f := by
  rw [scanFile_eq, h]
  simp [FileMap.set]

theorem foldl_scanFile_keeps {a : GoString} {x : Object} :
    ∀ (l : List Object) (m : FileMap), m a = some x → l.foldl scanFile m a = some x := by
  intro l
  induction l with
  | nil => intro m h; exact h
  | cons f l ih => intro m h; exact ih (scanFile m f) (scanFile_keeps f h)

theorem foldl_scanFile_some {a : GoString} {x : Object} :
    ∀ (l : List Object) (m : FileMap), l.foldl scanFile m a = some x →
      m a = some x ∨ ∃ pre post, l = pre ++ x :: post ∧
        angleFor (pre.foldl scanFile m) x = some a := by
  intro l
  induction l with
  | nil => intro m h; exact Or.inl h
  | cons f l ih =>
    intro m h
    rcases ih (scanFile m f) h with h1 | ⟨pre, post, hl, hp⟩
    · rcases scanFile_some h1 with h2 | ⟨rfl, h3⟩
      · exact Or.inl h2
      · exact Or.inr ⟨[], l, rfl, h3⟩
    · exact Or.inr ⟨f :: pre, post, by rw [hl]; rfl, hp⟩

/-- Every winner was recorded from one of the first eight entries, under the first angle
of the fixed order that its key names and that was still free. -/
theorem selectLatest_some {l : List Object} {a : GoString} {x : Object}
    (h : selectLatest l a = some x) :
    ∃ pre post, l.take 8 = pre ++ x :: post ∧
      angleFor (pre.foldl scanFile FileMap.empty) x = some a := by
  unfold selectLatest at h
  rw [take_fileCount] at h
  rcases foldl_scanFile_some _ _ h with h1 | h2
  · simp [FileMap.empty] at h1
  · exact h2

theorem selectLatest_sound {l : List Object} {a : GoString} {x : Object}
    (h : selectLatest l a = some x) :
    a ∈ angles ∧ x ∈ l.take 8 ∧ stringsContains x.Key a = true := by
  obtain ⟨pre, post, hl, hp⟩ := selectLatest_some h
  have := angleFor_some hp
  exact ⟨this.1, by rw [hl]; simp, this.2.1⟩

/-! ## The handler -/

theorem signedKeys_listed (env : Env) : signedKeys (listed env) = [] := rfl

theorem signedKeys_signed (env : Env) (key : GoString) :
    signedKeys (listed env ++ [Call.presign env.bucketName key 5]) = [key] := rfl

/-- The run of a request whose listing is not empty and whose ranking returns. -/
theorem handle_ranked (env : Env) (c : GoString) (fileList sorted : List Object)
    (hc : c ≠ []) (hs : env.newSession = Except.ok ())
    (hl : listObjects env = Except.ok fileList) (hne : fileList ≠ [])
    (hr : SliceStable fileList less = some sorted) :
    handleLiveRequest env (some c) =
      (match env.presign env.bucketName (keyToSign sorted c) 5 with
        | Except.error err => Response.httpError err 500
        | Except.ok urlStr => Response.httpRedirect urlStr 302,
       listed env ++ [Call.presign env.bucketName (keyToSign sorted c) 5]) := by
  have hlen : fileList.length > 0 := List.length_pos.mpr hne
  unfold handleLiveRequest
  simp only [queryGet, Option.getD_some, hc, if_false, hs, hl, hlen, if_true, hr]
  cases env.presign env.bucketName (keyToSign sorted c) 5 <;> rfl

/-- The run of a request whose ranking panics. -/
theorem handle_panicked (env : Env) (c : GoString) (fileList : List Object)
    (hc : c ≠ []) (hs : env.newSession = Except.ok ())
    (hl : listObjects env = Except.ok fileList) (hne : fileList ≠ [])
    (hr : SliceStable fileList less = none) :
    handleLiveRequest env (some c) = (Response.panicked, listed env) := by
  have hlen : fileList.length > 0 := List.length_pos.mpr hne
  unfold handleLiveRequest
  simp only [queryGet, Option.getD_some, hc, if_false, hs, hl, hlen, if_true, hr]

/-- The run of a request whose listing is empty. -/
theorem handle_empty (env : Env) (c : GoString)
    (hc : c ≠ []) (hs : env.newSession = Except.ok ())
    (hl : listObjects env = Except.ok []) :
    handleLiveRequest env (some c) =
      (Response.httpError (ascii "No files found") 500, listed env) := by
  unfold handleLiveRequest
  simp [queryGet, hc, hs, hl]

/-! ## Keys that name exactly one angle -/

theorem wellFormed_unique {f : Object} (hf : wellFormed f = true) {a b : GoString}
    (ha : a ∈ angles) (hca : stringsContains f.Key a = true)
    (hb : b ∈ angles) (hcb : stringsContains f.Key b = true) : b = a := by
  unfold wellFormed at hf
  simp only [Bool.and_eq_true, decide_eq_true_eq] at hf
  obtain ⟨c, hc⟩ := List.length_eq_one.mp hf.2
  have h1 : a ∈ angles.filter (fun a => stringsContains f.Key a) :=
    List.mem_filter.mpr ⟨ha, hca⟩
  have h2 : b ∈ angles.filter (fun a => stringsContains f.Key a) :=
    List.mem_filter.mpr ⟨hb, hcb⟩
  rw [hc] at h1 h2
  simp at h1 h2
  rw [h1, h2]

/-- A well-formed key always leaves its angle with a winner. -/
theorem scanFile_records {m : FileMap} {f : Object} (hf : wellFormed f = true)
    {a : GoString} (ha : a ∈ angles) (hca : stringsContains f.Key a = true) :
    (scanFile m f a).isSome = true := by
  cases hm : m a with
  | some x => rw [scanFile_keeps f hm]; rfl
  | none =>
    rw [scanFile_eq]
    cases hang : angleFor m f with
    | none =>
      exfalso
      unfold angleFor at hang
      rw [List.find?_eq_none] at hang
      have := hang a ha
      simp [hca, hm] at this
    | some b =>
      have hb := angleFor_some hang
      have hba : b = a := wellFormed_unique hf ha hca hb.1 hb.2.1
      simp [FileMap.set, hba]

theorem foldl_scanFile_records {a : GoString} (ha : a ∈ angles) :
    ∀ (l : List Object) (m : FileMap),
      (∃ f ∈ l, wellFormed f = true ∧ stringsContains f.Key a = true) →
      (l.foldl scanFile m a).isSome = true := by
  intro l
  induction l with
  | nil => intro m h; simp at h
  | cons g l ih =>
    intro m h
    obtain ⟨f, hf, hwf, hca⟩ := h
    rcases List.mem_cons.mp hf with rfl | hmem
    · have h1 := scanFile_records (m := m) hwf ha hca
      obtain ⟨x, hx⟩ := Option.isSome_iff_exists.mp h1
      rw [List.foldl_cons, foldl_scanFile_keeps l _ hx]
      rfl
    · exact ih (scanFile m g) ⟨f, hmem, hwf, hca⟩

/-- In a descending ranking of well-formed keys the winner of an angle is at least as
recent as every entry that names the angle. -/
theorem selectLatest_newest {r : List Object} (hwf : ∀ o ∈ r, wellFormed o = true)
    (hsorted : r.Pairwise Descending) {a : GoString} {x : Object}
    (h : selectLatest r a = some x) :
    ∀ o ∈ r, stringsContains o.Key a = true →
      0 ≤ stringsCompare (timestamp x) (timestamp o) := by
  obtain ⟨pre, post, htake, hang⟩ := selectLatest_some h
  have hfree := angleFor_some hang
  have hr : r = pre ++ x :: (post ++ r.drop 8) := by
    have := List.take_append_drop 8 r
    rw [htake] at this
    simpa using this.symm
  intro o ho hco
  rw [hr] at ho hsorted
  rcases List.mem_append.mp ho with hpre | hrest
  · exfalso
    have hrec := foldl_scanFile_records hfree.1 pre FileMap.empty
      ⟨o, hpre, hwf o (by rw [hr]; exact List.mem_append_left _ hpre), hco⟩
    rw [hfree.2.2] at hrec
    cases hrec
  · rcases List.mem_cons.mp hrest with rfl | hafter
    · rw [stringsCompare_self]
    · have h2 := (List.pairwise_append.mp hsorted).2.1
      exact (List.pairwise_cons.mp h2).1 o hafter

/-! ## Fixed-width timestamps -/

theorem isTimestamp_shape {s : GoString} (h : isTimestamp s = true) :
    ∃ y1 y2 y3 y4 m1 m2 d1 d2 h1 h2 n1 n2 s1 s2 : Nat,
      s = [y1, y2, y3, y4, 45, m1, m2, 45, d1, d2, 95, h1, h2, 45, n1, n2, 45, s1, s2] ∧
      (48 ≤ y1 ∧ y1 ≤ 57) ∧ (48 ≤ y2 ∧ y2 ≤ 57) ∧ (48 ≤ y3 ∧ y3 ≤ 57) ∧ (48 ≤ y4 ∧ y4 ≤ 57) ∧
      (48 ≤ m1 ∧ m1 ≤ 57) ∧ (48 ≤ m2 ∧ m2 ≤ 57) ∧ (48 ≤ d1 ∧ d1 ≤ 57) ∧ (48 ≤ d2 ∧ d2 ≤ 57) ∧
      (48 ≤ h1 ∧ h1 ≤ 57) ∧ (48 ≤ h2 ∧ h2 ≤ 57) ∧ (48 ≤ n1 ∧ n1 ≤ 57) ∧ (48 ≤ n2 ∧ n2 ≤ 57) ∧
      (48 ≤ s1 ∧ s1 ≤ 57) ∧ (48 ≤ s2 ∧ s2 ≤ 57) := by
  unfold isTimestamp at h
  simp only [decide_eq_true_eq] at h
  simp only [re, digits, List.replicate, List.cons_append, List.nil_append,
    List.append_assoc] at h
  rcases s with _ | ⟨a0, _ | ⟨a1, _ | ⟨a2, _ | ⟨a3, _ | ⟨a4, _ | ⟨a5, _ | ⟨a6, _ | ⟨a7,
    _ | ⟨a8, _ | ⟨a9, _ | ⟨a10, _ | ⟨a11, _ | ⟨a12, _ | ⟨a13, _ | ⟨a14, _ | ⟨a15,
    _ | ⟨a16, _ | ⟨a17, _ | ⟨a18, _ | ⟨a19, rest⟩⟩⟩⟩⟩⟩⟩⟩⟩⟩⟩⟩⟩⟩⟩⟩⟩⟩⟩⟩
  all_goals simp [matchHere, Atom.accepts] at h
  · obtain ⟨⟨_, _⟩, ⟨_, _⟩, ⟨_, _⟩, ⟨_, _⟩, rfl, ⟨_, _⟩, ⟨_, _⟩, rfl, ⟨_, _⟩, ⟨_, _⟩, rfl,
      ⟨_, _⟩, ⟨_, _⟩, rfl, ⟨_, _⟩, ⟨_, _⟩, rfl, ⟨_, _⟩, ⟨_, _⟩⟩ := h
    exact ⟨a0, a1, a2, a3, a5, a6, a8, a9, a11, a12, a14, a15, a17, a18, rfl,
      by omega, by omega, by omega, by omega, by omega, by omega, by omega, by omega,
      by omega, by omega, by omega, by omega, by omega, by omega⟩

theorem decimal_two (a b : Nat) : decimal [a, b] = 10 * (a - 48) + (b - 48) := by
  simp [decimal]

theorem decimal_four (a b c d : Nat) :
    decimal [a, b, c, d] = 1000 * (a - 48) + 100 * (b - 48) + 10 * (c - 48) + (d - 48) := by
  simp only [decimal, List.foldl]
  omega

theorem compare_separator (c : Nat) (r R : GoString) :
    stringsCompare (c :: r) (c :: R) = stringsCompare r R := by
  simp [stringsCompare]

theorem compare_two {a b A B : Nat} (ha : 48 ≤ a ∧ a ≤ 57) (hb : 48 ≤ b ∧ b ≤ 57)
    (hA : 48 ≤ A ∧ A ≤ 57) (hB : 48 ≤ B ∧ B ≤ 57) (r R : GoString) :
    stringsCompare (a :: b :: r) (A :: B :: R) =
      if decimal [a, b] < decimal [A, B] then -1
      else if decimal [A, B] < decimal [a, b] then 1 else stringsCompare r R := by
  rw [decimal_two, decimal_two]
  simp only [stringsCompare]
  split_ifs <;> first | rfl | omega

theorem compare_four {a b c d A B C D : Nat} (ha : 48 ≤ a ∧ a ≤ 57) (hb : 48 ≤ b ∧ b ≤ 57)
    (hc : 48 ≤ c ∧ c ≤ 57) (hd : 48 ≤ d ∧ d ≤ 57)
    (hA : 48 ≤ A ∧ A ≤ 57) (hB : 48 ≤ B ∧ B ≤ 57)
    (hC : 48 ≤ C ∧ C ≤ 57) (hD : 48 ≤ D ∧ D ≤ 57) (r R : GoString) :
    stringsCompare (a :: b :: c :: d :: r) (A :: B :: C :: D :: R) =
      if decimal [a, b, c, d] < decimal [A, B, C, D] then -1
      else if decimal [A, B, C, D] < decimal [a, b, c, d] then 1
      else stringsCompare r R := by
  rw [decimal_four, decimal_four]
  simp only [stringsCompare]
  split_ifs <;> first | rfl | omega

theorem fieldsOf_shape (y1 y2 y3 y4 m1 m2 d1 d2 h1 h2 n1 n2 s1 s2 c1 c2 c3 c4 c5 : Nat) :
    fieldsOf [y1, y2, y3, y4, c1, m1, m2, c2, d1, d2, c3, h1, h2, c4, n1, n2, c5, s1, s2]
      = ⟨decimal [y1, y2, y3, y4], decimal [m1, m2], decimal [d1, d2], decimal [h1, h2],
        decimal [n1, n2], decimal [s1, s2]⟩ := rfl

theorem before_iff (p1 p2 p3 p4 p5 p6 q1 q2 q3 q4 q5 q6 : Nat) :
    Instant.before ⟨p1, p2, p3, p4, p5, p6⟩ ⟨q1, q2, q3, q4, q5, q6⟩ ↔
      (p1 < q1 ∨ (p1 = q1 ∧ (p2 < q2 ∨ (p2 = q2 ∧ (p3 < q3 ∨ (p3 = q3 ∧ (p4 < q4 ∨ (p4 = q4 ∧
        (p5 < q5 ∨ (p5 = q5 ∧ p6 < q6)))))))))) := Iff.rfl

theorem step_neg (p q : Nat) (w : Int) :
    (if p < q then (-1 : Int) else if q < p then 1 else w) < 0 ↔ (p < q ∨ (p = q ∧ w < 0)) := by
  split_ifs <;> omega

theorem step_zero (p q : Nat) (w : Int) :
    (if p < q then (-1 : Int) else if q < p then 1 else w) = 0 ↔ (p = q ∧ w = 0) := by
  by_cases h1 : p < q
  · simp only [h1, if_true]
    constructor
    · intro h; omega
    · intro h; omega
  · by_cases h2 : q < p
    · simp only [h1, h2, if_true, if_false]
      constructor
      · intro h; omega
      · intro h; omega
    · simp only [h1, h2, if_false]
      constructor
      · intro h; exact ⟨by omega, h⟩
      · intro h; exact h.2

theorem step_pos (p q : Nat) (w : Int) :
    0 < (if p < q then (-1 : Int) else if q < p then 1 else w) ↔ (q < p ∨ (q = p ∧ 0 < w)) := by
  split_ifs <;> omega

theorem lexicographic_fields (p1 p2 p3 p4 p5 p6 q1 q2 q3 q4 q5 q6 : Nat) (v : Int)
    (hv : v = if p1 < q1 then -1 else if q1 < p1 then 1 else
      if p2 < q2 then -1 else if q2 < p2 then 1 else
      if p3 < q3 then -1 else if q3 < p3 then 1 else
      if p4 < q4 then -1 else if q4 < p4 then 1 else
      if p5 < q5 then -1 else if q5 < p5 then 1 else
      if p6 < q6 then -1 else if q6 < p6 then 1 else 0) :
    (v < 0 ↔ Instant.before ⟨p1, p2, p3, p4, p5, p6⟩ ⟨q1, q2, q3, q4, q5, q6⟩) ∧
    (v = 0 ↔ (⟨p1, p2, p3, p4, p5, p6⟩ : Instant) = ⟨q1, q2, q3, q4, q5, q6⟩) ∧
    (0 < v ↔ Instant.before ⟨q1, q2, q3, q4, q5, q6⟩ ⟨p1, p2, p3, p4, p5, p6⟩) := by
  rw [before_iff, before_iff, Instant.mk.injEq]
  subst hv
  refine ⟨?_, ?_, ?_⟩
  · simp only [step_neg, lt_self_iff_false, and_false, or_false]
  · simp only [step_zero, and_true]
  · simp only [step_pos, lt_self_iff_false, and_false, or_false]

theorem compare_chronological {s t : GoString} (hs : isTimestamp s = true)
    (ht : isTimestamp t = true) :
    (stringsCompare s t < 0 ↔ (fieldsOf s).before (fieldsOf t)) ∧
    (stringsCompare s t = 0 ↔ fieldsOf s = fieldsOf t) ∧
    (0 < stringsCompare s t ↔ (fieldsOf t).before (fieldsOf s)) := by
  obtain ⟨y1, y2, y3, y4, m1, m2, d1, d2, h1, h2, n1, n2, s1, s2, rfl, by1, by2, by3, by4,
    bm1, bm2, bd1, bd2, bh1, bh2, bn1, bn2, bs1, bs2⟩ := isTimestamp_shape hs
  obtain ⟨Y1, Y2, Y3, Y4, M1, M2, D1, D2, H1, H2, N1, N2, S1, S2, rfl, bY1, bY2, bY3, bY4,
    bM1, bM2, bD1, bD2, bH1, bH2, bN1, bN2, bS1, bS2⟩ := isTimestamp_shape ht
  rw [fieldsOf_shape, fieldsOf_shape]
  apply lexicographic_fields
  rw [compare_four by1 by2 by3 by4 bY1 bY2 bY3 bY4, compare_separator,
    compare_two bm1 bm2 bM1 bM2, compare_separator,
    compare_two bd1 bd2 bD1 bD2, compare_separator,
    compare_two bh1 bh2 bH1 bH2, compare_separator,
    compare_two bn1 bn2 bN1 bN2, compare_separator,
    compare_two bs1 bs2 bS1 bS2]
  rfl

/-! ## Auxiliary facts for the claims -/

/-- None of the four camera names is the empty string. -/
theorem angle_ne_nil {c : GoString} (hc : c ∈ angles) : c ≠ [] := by
  unfold angles at hc
  simp only [List.mem_cons, List.mem_singleton, List.not_mem_nil, or_false] at hc
  rcases hc with rfl | rfl | rfl | rfl <;> decide

/-- A well-formed key carries a timestamp. -/
theorem wellFormed_hasTimestamp {o : Object} (h : wellFormed o = true) :
    hasTimestamp o = true := by
  unfold wellFormed at h
  simp only [Bool.and_eq_true] at h
  exact h.1

/-- When at most eight entries are ranked the loop scans all of them. -/
theorem selectLatest_short (l : List Object) (h : l.length ≤ 8) :
    selectLatest l = l.foldl scanFile FileMap.empty := by
  unfold selectLatest
  rw [take_fileCount, List.take_of_length_le h]

/-! ## The claims -/

/-- C1: when every key of the listing contains a timestamp, the ranking returns; the
ranked sequence is a permutation of the listing, every entry is at least as recent (by
byte-wise comparison of the leftmost timestamps) as the entries after it, and for every
timestamp the entries carrying it come in the order they had in the listing. -/
theorem ranking_stable_descending (listing : List Object)
    (h : ∀ o ∈ listing, hasTimestamp o = true) :
    ∃ ranked, SliceStable listing less = some ranked ∧ ranked.Perm listing ∧
      ranked.Pairwise (fun a b => 0 ≤ stringsCompare (timestamp a) (timestamp b)) ∧
      ∀ t, ranked.filter (fun o => decide (timestamp o = t)) =
        listing.filter (fun o => decide (timestamp o = t)) :=
  SliceStable_spec listing h

/-- C1, on two capture bursts listed oldest first: the later burst is ranked first and
within each burst the back clip stays before the front clip. -/
theorem ranking_stable_descending_witness :
    (∀ o ∈ twoBursts, hasTimestamp o = true) ∧
    SliceStable twoBursts less = some
      [clip "tesla/streams/2024-01-01/2024-01-01_10-00-00-back.mp4" 3,
       clip "tesla/streams/2024-01-01/2024-01-01_10-00-00-front.mp4" 4,
       clip "tesla/streams/2024-01-01/2024-01-01_09-00-00-back.mp4" 1,
       clip "tesla/streams/2024-01-01/2024-01-01_09-00-00-front.mp4" 2] ∧
    ∃ ranked, SliceStable twoBursts less = some ranked ∧ ranked.Perm twoBursts ∧
      ranked.Pairwise (fun a b => 0 ≤ stringsCompare (timestamp a) (timestamp b)) ∧
      ∀ t, ranked.filter (fun o => decide (timestamp o = t)) =
        twoBursts.filter (fun o => decide (timestamp o = t)) :=
  ⟨by decide, by decide, ranking_stable_descending twoBursts (by decide)⟩

/-- C2: for a non-empty listing of well-formed keys and a requested camera among the
four, exactly one key is signed; if it is not the placeholder, it is the key of a listed
object, it contains the camera's name, and no listed key that contains the camera's name
has a later timestamp. -/
theorem newest_clip_wins (env : Env) (listing : List Object) (c : GoString)
    (hs : env.newSession = Except.ok ()) (hl : listObjects env = Except.ok listing)
    (hne : listing ≠ []) (hwf : ∀ o ∈ listing, wellFormed o = true) (hc : c ∈ angles) :
    ∃ k, signedKeys (handleLiveRequest env (some c)).2 = [k] ∧
      (k ≠ placeholder → ∃ x ∈ listing, x.Key = k ∧ stringsContains k c = true ∧
        ∀ o ∈ listing, stringsContains o.Key c = true →
          stringsCompare (timestamp o) (timestamp x) ≤ 0) := by
  obtain ⟨r, hr, hperm, hsorted, _⟩ :=
    SliceStable_spec listing (fun o ho => wellFormed_hasTimestamp (hwf o ho))
  refine ⟨keyToSign r c, ?_, ?_⟩
  · rw [handle_ranked env c listing r (angle_ne_nil hc) hs hl hne hr]
    exact signedKeys_signed env _
  · intro hk
    unfold keyToSign at hk ⊢
    cases hsel : selectLatest r c with
    | none => simp [hsel] at hk
    | some x =>
      have hx := selectLatest_sound hsel
      have hwfr : ∀ o ∈ r, wellFormed o = true := fun o ho => hwf o (hperm.subset ho)
      refine ⟨x, hperm.subset (List.mem_of_mem_take hx.2.1), rfl, hx.2.2, ?_⟩
      intro o ho hco
      have := selectLatest_newest hwfr hsorted hsel o (hperm.symm.subset ho) hco
      rw [stringsCompare_swap] at this
      omega

/-- C2, for camera=front on two front clips, the older one listed first: the 10-00-00 key
is signed. -/
theorem newest_clip_wins_witness :
    signedKeys (handleLiveRequest (fakeStore twoFront) (some camFront)).2 =
      [ascii "tesla/streams/2024-01-01/2024-01-01_10-00-00-front.mp4"] ∧
    ∃ k, signedKeys (handleLiveRequest (fakeStore twoFront) (some camFront)).2 = [k] ∧
      (k ≠ placeholder → ∃ x ∈ twoFront, x.Key = k ∧ stringsContains k camFront = true ∧
        ∀ o ∈ twoFront, stringsContains o.Key camFront = true →
          stringsCompare (timestamp o) (timestamp x) ≤ 0) :=
  ⟨by decide, newest_clip_wins (fakeStore twoFront) twoFront camFront rfl rfl (by decide)
    (by decide) (by decide)⟩

/-- C3: for a ranked sequence of at most eight entries, only the four angles can have a
winner, a winner once recorded for an angle is never replaced by a later entry, every
winner is an entry of the sequence, and the key of the winner of an angle contains the
name of that angle. -/
theorem selector_sound (ranked : List Object) (hlen : ranked.length ≤ 8) :
    (∀ a, a ∉ angles → selectLatest ranked a = none) ∧
    (∀ a x scanned later, ranked = scanned ++ later → selectLatest scanned a = some x →
      selectLatest ranked a = some x) ∧
    (∀ a x, selectLatest ranked a = some x →
      x ∈ ranked ∧ stringsContains x.Key a = true) := by
  refine ⟨?_, ?_, ?_⟩
  · intro a ha
    cases hsel : selectLatest ranked a with
    | none => rfl
    | some x => exact absurd (selectLatest_sound hsel).1 ha
  · intro a x scanned later hsplit hscanned
    have h1 : scanned.length ≤ 8 := by
      rw [hsplit, List.length_append] at hlen
      omega
    rw [selectLatest_short scanned h1] at hscanned
    rw [selectLatest_short ranked hlen, hsplit, List.foldl_append]
    exact foldl_scanFile_keeps later _ hscanned
  · intro a x hsel
    have := selectLatest_sound hsel
    exact ⟨List.mem_of_mem_take this.2.1, this.2.2⟩

/-- C3, on the listing without a right clip: front has its winner and right has none. -/
theorem selector_sound_witness :
    noRight.length ≤ 8 ∧
    selectLatest noRight camFront =
      some (clip "tesla/streams/2024-01-01/2024-01-01_10-00-00-front.mp4" 1) ∧
    selectLatest noRight camRight = none ∧
    ((∀ a, a ∉ angles → selectLatest noRight a = none) ∧
    (∀ a x scanned later, noRight = scanned ++ later → selectLatest scanned a = some x →
      selectLatest noRight a = some x) ∧
    (∀ a x, selectLatest noRight a = some x →
      x ∈ noRight ∧ stringsContains x.Key a = true)) :=
  ⟨by decide, by decide, by decide, selector_sound noRight (by decide)⟩

/-- C4: every winner recorded by the selector is one of the first eight entries of the
ranked sequence, and an angle whose name none of the first eight keys contains has no
winner, whatever follows them. -/
theorem scan_bound (ranked : List Object) :
    (∀ a x, selectLatest ranked a = some x → x ∈ ranked.take 8) ∧
    (∀ a, (∀ o ∈ ranked.take 8, stringsContains o.Key a = false) →
      selectLatest ranked a = none) := by
  refine ⟨fun a x hsel => (selectLatest_sound hsel).2.1, ?_⟩
  intro a hnone
  cases hsel : selectLatest ranked a with
  | none => rfl
  | some x =>
    have hx := selectLatest_sound hsel
    rw [hnone x hx.2.1] at hx
    exact absurd hx.2.2 (by simp)

/-- C4, on nine ranked clips of which only the ninth is a front clip: front has no
winner, while back has one among the first eight. -/
theorem scan_bound_witness :
    stringsContains (clip "2024-01-01_10-00-01-front.mp4" 9).Key camFront = true ∧
    clip "2024-01-01_10-00-01-front.mp4" 9 ∈ nineRanked ∧
    selectLatest nineRanked camFront = none ∧
    clip "2024-01-01_10-00-09-back.mp4" 1 ∈ nineRanked.take 8 :=
  ⟨by decide, by decide, (scan_bound nineRanked).2 camFront (by decide),
    (scan_bound nineRanked).1 camBack _ (by decide)⟩

/-- C5: for a non-empty listing whose keys all contain a timestamp and a non-empty
camera string that no listed key contains, the one key signed is `"/placeholder.mp4"`,
and when signing returns a URL the response is a 302 redirect to it. -/
theorem placeholder_fallback (env : Env) (listing : List Object) (c : GoString)
    (hs : env.newSession = Except.ok ()) (hl : listObjects env = Except.ok listing)
    (hne : listing ≠ []) (hts : ∀ o ∈ listing, hasTimestamp o = true) (hc : c ≠ [])
    (hno : ∀ o ∈ listing, stringsContains o.Key c = false) :
    signedKeys (handleLiveRequest env (some c)).2 = [ascii "/placeholder.mp4"] ∧
    ∀ urlStr, env.presign env.bucketName (ascii "/placeholder.mp4") 5 = Except.ok urlStr →
      (handleLiveRequest env (some c)).1 = Response.httpRedirect urlStr 302 := by
  obtain ⟨r, hr, hperm, _, _⟩ := SliceStable_spec listing hts
  have hkey : keyToSign r c = ascii "/placeholder.mp4" := by
    unfold keyToSign
    cases hsel : selectLatest r c with
    | none => rfl
    | some x =>
      have hx := selectLatest_sound hsel
      have hx2 := hno x (hperm.subset (List.mem_of_mem_take hx.2.1))
      rw [hx.2.2] at hx2
      cases hx2
  rw [handle_ranked env c listing r hc hs hl hne hr, hkey]
  refine ⟨signedKeys_signed env _, ?_⟩
  intro urlStr hurl
  simp only [hurl]

/-- C5, for camera=right on a listing of front, back and left clips only. -/
theorem placeholder_fallback_witness :
    handleLiveRequest (fakeStore noRight) (some camRight) =
      (Response.httpRedirect (ascii "https://s3.test/placeholder.mp4") 302,
        listed (fakeStore noRight) ++ [Call.presign (ascii "clips") (ascii "/placeholder.mp4") 5]) ∧
    (signedKeys (handleLiveRequest (fakeStore noRight) (some camRight)).2 =
        [ascii "/placeholder.mp4"] ∧
      ∀ urlStr, (fakeStore noRight).presign (fakeStore noRight).bucketName
          (ascii "/placeholder.mp4") 5 = Except.ok urlStr →
        (handleLiveRequest (fakeStore noRight) (some camRight)).1 =
          Response.httpRedirect urlStr 302) :=
  ⟨by decide, placeholder_fallback (fakeStore noRight) noRight camRight rfl rfl (by decide)
    (by decide) (by decide) (by decide)⟩

/-- C6: when the session opens and the listing returns no object, a request with a
non-empty camera value is answered by the error `"No files found"` with status 500; the
calls made are the session and the listing only, no key is signed and the response is
not a redirect. -/
theorem empty_listing_fails (env : Env) (c : GoString) (hc : c ≠ [])
    (hs : env.newSession = Except.ok ()) (hl : listObjects env = Except.ok []) :
    handleLiveRequest env (some c) =
      (Response.httpError (ascii "No files found") 500, listed env) ∧
    signedKeys (handleLiveRequest env (some c)).2 = [] ∧
    ∀ urlStr code, (handleLiveRequest env (some c)).1 ≠ Response.httpRedirect urlStr code := by
  rw [handle_empty env c hc hs hl]
  refine ⟨rfl, signedKeys_listed env, ?_⟩
  intro urlStr code h
  cases h

/-- C6, for camera=front on the empty listing. -/
theorem empty_listing_fails_witness :
    handleLiveRequest (fakeStore []) (some camFront) =
      (Response.httpError (ascii "No files found") 500, listed (fakeStore [])) ∧
    signedKeys (handleLiveRequest (fakeStore []) (some camFront)).2 = [] ∧
    ∀ urlStr code,
      (handleLiveRequest (fakeStore []) (some camFront)).1 ≠ Response.httpRedirect urlStr code :=
  empty_listing_fails (fakeStore []) camFront (by decide) rfl rfl

/-- C7: with the camera parameter omitted or empty the handler answers status 400 and
makes no call at all, neither to the session nor to the store, whatever the environment
would have listed or signed. -/
theorem missing_camera (env : Env) :
    handleLiveRequest env none =
      (Response.httpError (ascii "No camera specified (front, back, left, right)") 400, []) ∧
    handleLiveRequest env (some []) =
      (Response.httpError (ascii "No camera specified (front, back, left, right)") 400, []) :=
  ⟨rfl, rfl⟩

/-- C8 as stated fails on a listing of one key without a timestamp: the comparator is never
called, the ranking returns the listing, and the request is answered by a redirect to the
signed malformed key. -/
theorem single_malformed_key_passes :
    oneMalformed ≠ [] ∧ (∃ o ∈ oneMalformed, hasTimestamp o = false) ∧
    SliceStable oneMalformed less = some oneMalformed ∧
    handleLiveRequest (fakeStore oneMalformed) (some camFront) =
      (Response.httpRedirect (ascii "https://s3.testtesla/streams/2024-01-01/front.mp4") 302,
        listed (fakeStore oneMalformed) ++
          [Call.presign (ascii "clips") (ascii "tesla/streams/2024-01-01/front.mp4") 5]) :=
  ⟨by decide, by decide, by decide, by decide⟩

/-- C8, amended: for a listing of two or more objects of which at least one key contains
no timestamp, the ranking panics; the request ends without a response, nothing is signed
and no redirect is issued. -/
theorem malformed_key_panics (env : Env) (listing : List Object) (c : GoString)
    (hc : c ≠ []) (hs : env.newSession = Except.ok ())
    (hl : listObjects env = Except.ok listing) (hlen : 2 ≤ listing.length)
    (hbad : ∃ o ∈ listing, hasTimestamp o = false) :
    SliceStable listing less = none ∧
    handleLiveRequest env (some c) = (Response.panicked, listed env) ∧
    signedKeys (handleLiveRequest env (some c)).2 = [] := by
  have hr := SliceStable_panics listing hlen hbad
  have hne : listing ≠ [] := by
    intro h
    rw [h] at hlen
    simp at hlen
  rw [handle_panicked env c listing hc hs hl hne hr]
  exact ⟨hr, rfl, signedKeys_listed env⟩

/-- C8, amended, on a listing of a well-formed key followed by a malformed one. -/
theorem malformed_key_panics_witness :
    SliceStable twoWithMalformed less = none ∧
    handleLiveRequest (fakeStore twoWithMalformed) (some camFront) =
      (Response.panicked, listed (fakeStore twoWithMalformed)) ∧
    signedKeys (handleLiveRequest (fakeStore twoWithMalformed) (some camFront)).2 = [] :=
  malformed_key_panics (fakeStore twoWithMalformed) twoWithMalformed camFront (by decide)
    rfl rfl (by decide) (by decide)

/-- C9: for two strings that match `YYYY-MM-DD_HH-MM-SS` as a whole, `strings.Compare` is
negative, zero or positive exactly when the tuple (year, month, day, hour, minute,
second) of the first is before, equal to or after that of the second. -/
theorem lexicographic_is_chronological (s t : GoString) (hs : isTimestamp s = true)
    (ht : isTimestamp t = true) :
    (stringsCompare s t < 0 ↔ (fieldsOf s).before (fieldsOf t)) ∧
    (stringsCompare s t = 0 ↔ fieldsOf s = fieldsOf t) ∧
    (0 < stringsCompare s t ↔ (fieldsOf t).before (fieldsOf s)) :=
  compare_chronological hs ht

/-- C9, on 2023-12-31_23-59-59 and 2024-01-01_00-00-00. -/
theorem lexicographic_is_chronological_witness :
    isTimestamp (ascii "2023-12-31_23-59-59") = true ∧
    isTimestamp (ascii "2024-01-01_00-00-00") = true ∧
    fieldsOf (ascii "2023-12-31_23-59-59") = ⟨2023, 12, 31, 23, 59, 59⟩ ∧
    stringsCompare (ascii "2023-12-31_23-59-59") (ascii "2024-01-01_00-00-00") = -1 ∧
    (fieldsOf (ascii "2023-12-31_23-59-59")).before (fieldsOf (ascii "2024-01-01_00-00-00")) :=
  ⟨by decide, by decide, by decide, by decide,
    (lexicographic_is_chronological _ _ (by decide) (by decide)).1.mp (by decide)⟩

/-- C10 as stated fails on a key that names two angles: after a front clip has been
recorded, the key `...front-back.mp4` is recorded as the winner of back, although the
first angle it names is front. -/
theorem ambiguous_key_recorded_for_later_angle :
    selectLatest ambiguous camBack = some (clip "2024-01-01_09-00-00-front-back.mp4" 2) ∧
    firstAngle (clip "2024-01-01_09-00-00-front-back.mp4" 2) = some camFront ∧
    camFront ≠ camBack :=
  ⟨by decide, by decide, by decide⟩

/-- C10, amended: the selector records an entry as the winner of an angle exactly when
the entry is one of the first eight and the angle is the first one in the order front,
back, left, right whose name the key contains and that has no winner among the entries
ranked before it. So a key that names several angles is recorded for a later angle of
that order whenever the earlier angles it names already have winners and that later
angle has none. -/
theorem winner_is_first_free_angle (ranked : List Object) (a : GoString) (x : Object) :
    selectLatest ranked a = some x ↔
      ∃ before after, ranked.take 8 = before ++ x :: after ∧
        angles.find? (fun b => stringsContains x.Key b && (selectLatest before b).isNone) =
          some a := by
  have hshort : ∀ before after : List Object, ranked.take 8 = before ++ x :: after →
      selectLatest before = before.foldl scanFile FileMap.empty := by
    intro before after htake
    apply selectLatest_short
    have := congrArg List.length htake
    rw [List.length_take, List.length_append] at this
    omega
  constructor
  · intro h
    obtain ⟨pre, post, htake, hang⟩ := selectLatest_some h
    refine ⟨pre, post, htake, ?_⟩
    rw [hshort pre post htake]
    exact hang
  · rintro ⟨before, after, htake, hang⟩
    rw [hshort before after htake] at hang
    unfold selectLatest
    rw [take_fileCount, htake, List.foldl_append, List.foldl_cons]
    exact foldl_scanFile_keeps after _ (scanFile_sets hang)

/-- C10, amended, on the ambiguous key: when `...front-back.mp4` is scanned front has its
winner and back is free, so the key is recorded as the winner of back. -/
theorem winner_is_first_free_angle_witness :
    selectLatest [clip "2024-01-01_10-00-00-front.mp4" 1] camFront =
      some (clip "2024-01-01_10-00-00-front.mp4" 1) ∧
    selectLatest [clip "2024-01-01_10-00-00-front.mp4" 1] camBack = none ∧
    selectLatest ambiguous camBack = some (clip "2024-01-01_09-00-00-front-back.mp4" 2) :=
  ⟨by decide, by decide,
    (winner_is_first_free_angle ambiguous camBack
      (clip "2024-01-01_09-00-00-front-back.mp4" 2)).mpr
      ⟨[clip "2024-01-01_10-00-00-front.mp4" 1], [], by decide, by decide⟩⟩

end TeslaLive
